import Mathlib

/-!
# Verification of the thread-local arena allocator (`arena.c`)

Shallow embedding of the per-thread arena allocator:

* machine addresses are modelled as byte offsets (`Nat`) into the arena's
  backing buffer; these offsets are stable across buffer growth, which is
  exactly the stability the source's `realloc`-based growth provides for
  offsets (raw addresses may move, offsets do not);
* `size_t` arithmetic is modelled on `Nat`; every scenario below stays far
  below `2^64`, and `arcalloc`'s explicit overflow guard is translated
  literally against `SIZE_MAX = 2^64 - 1`.  The one place where the claims
  themselves speak about wrap-around — the `ALIGN` macro — is additionally
  modelled modulo `2^64` as `ALIGN64`;
* the block headers that the C code stores inline in the buffer are modelled
  as an association list from header address to header contents, and the
  intrusive singly-linked free list (the `next` fields) is modelled as the
  list of header addresses in link order; the C code's pointer walks become
  structural recursion over that list;
* `malloc`/`realloc` of the backing buffer can fail; this environment choice
  is an explicit oracle `ok : Nat → Bool` telling whether a backing
  (re)allocation of a given size succeeds;
* payload bytes are modelled as a function `mem : Nat → Nat` (byte offset to
  byte value); the allocator itself never reads payloads, it only
  `memset`s (`arcalloc`) and `memcpy`s (`arrealloc`) them.

Platform constants are those of the x86-64 SysV ABI the source targets
(`_GNU_SOURCE`, pthreads): `sizeof(max_align_t) = 32` and
`sizeof(BlockHeader) = 24` (8-byte `size_t`, 4-byte `int` plus padding,
8-byte pointer).
-/

set_option linter.unusedVariables false

namespace Arena

/-- Value of `sizeof(max_align_t)` on x86-64 SysV: the unit used by the `ALIGN` macro. -/
def maxAlignSize : Nat := 32

/-- Value of `sizeof(BlockHeader)` on x86-64 SysV: `size_t` (8) + `int` (4, padded
to 8) + pointer (8). -/
def headerSize : Nat := 24

/-- Constant `GROWTH_FACTOR` from `arena.c`. -/
def GROWTH_FACTOR : Nat := 2

/-- Constant `MIN_THREAD_STACK` from `arena.h`: `5 * 1024 * 1024`. -/
def MIN_THREAD_STACK : Nat := 5 * 1024 * 1024

/-- Constant `SIZE_MAX` for 64-bit `size_t`. -/
def SIZE_MAX : Nat := 2 ^ 64 - 1

/-- The `ALIGN` macro: `(x + sizeof(max_align_t) - 1) & ~(sizeof(max_align_t) - 1)`.
Since `maxAlignSize` is a power of two, masking with `~(maxAlignSize - 1)`
clears the low bits, i.e. subtracts the remainder modulo `maxAlignSize`.
This is the exact (non-wrapping) value; `ALIGN64` below is the `size_t`
(mod `2^64`) version. -/
def ALIGN (x : Nat) : Nat :=
  (x + (maxAlignSize - 1)) - (x + (maxAlignSize - 1)) % maxAlignSize

/-- The `ALIGN` macro arithmetic as actually performed on a 64-bit `size_t`:
the sum `x + 31` wraps modulo `2^64` before the mask is applied. -/
def ALIGN64 (x : Nat) : Nat :=
  (x + (maxAlignSize - 1)) % 2 ^ 64 - ((x + (maxAlignSize - 1)) % 2 ^ 64) % maxAlignSize

/-- The C `struct BlockHeader`, minus the intrusive `next` pointer: the free-list
links are modelled as the address list `ThreadArena.freelist` below. -/
structure BlockHeader where
  /-- `size_t size` — the payload byte count recorded for this block. -/
  size : Nat
  /-- `int freed` — whether the block is on the free list. -/
  freed : Bool
deriving DecidableEq, Repr

/-- The headers embedded in the buffer: an association list from header
address (byte offset of the header in the buffer) to header contents. -/
abbrev Headers := List (Nat × BlockHeader)

/-- Read the header stored at address `p` (first entry with that key). -/
def lookupHdr : Headers → Nat → Option BlockHeader
  | [], _ => none
  | e :: t, p => if e.1 = p then some e.2 else lookupHdr t p

/-- Overwrite the header stored at address `p` (all entries with that key). -/
def updateHdr : Headers → Nat → (BlockHeader → BlockHeader) → Headers
  | [], _, _ => []
  | e :: t, p, f => (if e.1 = p then (e.1, f e.2) else e) :: updateHdr t p f

/-- Remove the header stored at address `p` (its storage has been absorbed
into a coalesced neighbour and is no longer a block of its own). -/
def eraseHdr : Headers → Nat → Headers
  | [], _ => []
  | e :: t, p => if e.1 = p then eraseHdr t p else e :: eraseHdr t p

/-- The `size` field read at address `p` (`0` if no header lives there). -/
def hdrSize (hs : Headers) (p : Nat) : Nat :=
  match lookupHdr hs p with
  | some h => h.size
  | none => 0

/-- The `freed` field read at address `p` (`false` if no header lives there). -/
def hdrFreed (hs : Headers) (p : Nat) : Bool :=
  match lookupHdr hs p with
  | some h => h.freed
  | none => false

/-- The C `struct ThreadArena`.  Its `buffer` itself is modelled by `mem` (payload
bytes) together with `headers` (the header metadata embedded in the buffer);
`freelist` is the chain of `next` links starting at the `freelist` head. -/
structure ThreadArena where
  capacity : Nat
  offset : Nat
  freelist : List Nat
  headers : Headers
  mem : Nat → Nat

/-- The arena created on a thread's first allocator call (`get_arena`):
`capacity = ALIGN(MIN_THREAD_STACK)`, `offset = 0`, empty free list.
The fresh buffer's bytes are unspecified; the model picks all zeros. -/
def arenaInit : ThreadArena :=
  { capacity := ALIGN MIN_THREAD_STACK
    offset := 0
    freelist := []
    headers := []
    mem := fun _ => 0 }

/-- Effect of `memset(p, 0, n)` on the payload bytes. -/
def memZero (m : Nat → Nat) (p n : Nat) : Nat → Nat :=
  fun i => if p ≤ i ∧ i < p + n then 0 else m i

/-- Effect of `memcpy(dst, src, n)` on the payload bytes. -/
def memCopy (m : Nat → Nat) (dst src n : Nat) : Nat → Nat :=
  fun i => if dst ≤ i ∧ i < dst + n then m (src + (i - dst)) else m i

/-- One iteration of `arena_expand`'s `while` body:
`new_cap = new_cap ? new_cap * GROWTH_FACTOR : ALIGN(required);
 if (new_cap < required) new_cap = required;`. -/
def expandStep (required new_cap : Nat) : Nat :=
  let nc := if new_cap = 0 then ALIGN required else new_cap * GROWTH_FACTOR
  if nc < required then required else nc

theorem expandStep_ge (required new_cap : Nat) :
    required ≤ expandStep required new_cap := by
  unfold expandStep
  dsimp only
  split <;> split <;> omega

/-- The `while (new_cap < required)` loop of `arena_expand`, started at
`new_cap = a->capacity`. -/
def expandLoop (required new_cap : Nat) : Nat :=
  if new_cap < required then expandLoop required (expandStep required new_cap)
  else new_cap
termination_by required - new_cap
decreasing_by
  have h := expandStep_ge required new_cap
  omega

/-- The loop body runs at most once: the clamp `if (new_cap < required)
new_cap = required;` sits *inside* the loop, so after one iteration
`new_cap ≥ required` and the loop exits. -/
theorem expandLoop_closed (required new_cap : Nat) :
    expandLoop required new_cap =
      if new_cap < required then expandStep required new_cap else new_cap := by
  rw [expandLoop]
  split
  · rw [expandLoop, if_neg (by have := expandStep_ge required new_cap; omega)]
  · rfl

theorem expandLoop_ge (required new_cap : Nat) :
    new_cap < required → required ≤ expandLoop required new_cap := by
  intro h
  rw [expandLoop_closed, if_pos h]
  exact expandStep_ge required new_cap

/-- The function `arena_expand`: grow the buffer to `expandLoop required capacity` bytes;
the backing `realloc` succeeds iff the oracle `ok` accepts the new size.
On failure (`realloc` returns `NULL`) the arena is untouched. -/
def arena_expand (ok : Nat → Bool) (a : ThreadArena) (required : Nat) :
    Option ThreadArena :=
  let new_cap := expandLoop required a.capacity
  if ok new_cap then some { a with capacity := new_cap } else none

/-- The first-fit test of `armalloc`'s scan loop:
`curr->freed && curr->size >= aligned`, reading the header at address `q`. -/
def fitPred (hs : Headers) (aligned : Nat) (q : Nat) : Bool :=
  match lookupHdr hs q with
  | some h => h.freed && decide (aligned ≤ h.size)
  | none => false

/-- The free-list scan of `armalloc`: walk the links in order; on the first node
passing `fitPred`, unlink it (`*prevp = curr->next`) and return it together
with the remaining list. -/
def scanFit (hs : Headers) (aligned : Nat) : List Nat → Option (Nat × List Nat)
  | [] => none
  | q :: rest =>
    if fitPred hs aligned q then some (q, rest)
    else
      match scanFit hs aligned rest with
      | some (r, l) => some (r, q :: l)
      | none => none

/-- The function `armalloc(size)`.  Returns the payload pointer (`header + 1`, i.e.
header address + `headerSize`) and the new arena state; `(none, a)` models
returning `NULL` (which happens only when buffer growth fails, and leaves
the arena untouched). -/
def armalloc (ok : Nat → Bool) (a : ThreadArena) (size : Nat) :
    Option Nat × ThreadArena :=
  let aligned := ALIGN size
  let total := aligned + headerSize
  match scanFit a.headers aligned a.freelist with
  | some (q, fl) =>
    -- reuse: unlink, mark live (`curr->freed = 0`), return whole
    (some (q + headerSize),
      { a with
        freelist := fl
        headers := updateHdr a.headers q fun h => { h with freed := false } })
  | none =>
    -- bump fallback, growing the buffer first if needed
    let grown : Option ThreadArena :=
      if a.offset + total > a.capacity then arena_expand ok a (a.offset + total)
      else some a
    match grown with
    | none => (none, a)
    | some a1 =>
      (some (a1.offset + headerSize),
        { a1 with
          headers := a1.headers ++ [(a1.offset, { size := aligned, freed := false })]
          offset := a1.offset + total })

/-- Coalescing step shared by the successor- and predecessor-merge of
`freelist_insert_and_coalesce`: the block at `x` absorbs the physically
following block at `y` (`x->size += sizeof(BlockHeader) + y->size`), and
`y`'s header ceases to be a block of its own (the C code leaves its stale
bytes inside `x`'s enlarged payload; the model drops the dead entry). -/
def mergeBlocks (hs : Headers) (x y : Nat) : Headers :=
  eraseHdr (updateHdr hs x fun h => { h with size := h.size + headerSize + hdrSize hs y }) y

/-- The function `freelist_insert_and_coalesce(a, block)` for the block whose header sits
at address `b`: mark it freed, link it into the address-sorted free list
(the insertion walk `while (curr && curr < block)` keeps exactly the
prefix of addresses `< b`), then merge with the list successor and finally
with the list predecessor. -/
def freelist_insert_and_coalesce (a : ThreadArena) (b : Nat) : ThreadArena :=
  -- block->freed = 1
  let hs0 := updateHdr a.headers b fun h => { h with freed := true }
  let left := a.freelist.takeWhile fun q => decide (q < b)
  let right := a.freelist.dropWhile fun q => decide (q < b)
  -- coalesce with next: `if (block->next && block->next->freed && end == start)`
  let step1 : Headers × List Nat :=
    match right with
    | n :: ns =>
      if hdrFreed hs0 n && decide (b + headerSize + hdrSize hs0 b = n) then
        (mergeBlocks hs0 b n, ns)
      else (hs0, right)
    | [] => (hs0, right)
  let hs1 := step1.1
  let right1 := step1.2
  -- coalesce with prev: `if (prev && prev->freed && end_prev == start_block)`
  match left.getLast? with
  | some p =>
    if hdrFreed hs1 p && decide (p + headerSize + hdrSize hs1 p = b) then
      { a with headers := mergeBlocks hs1 p b, freelist := left ++ right1 }
    else { a with headers := hs1, freelist := left ++ b :: right1 }
  | none => { a with headers := hs1, freelist := left ++ b :: right1 }

/-- The function `arfree(ptr)`.  Here `none` models `NULL` (no-op); a pointer whose preceding
header says `freed` is a no-op (the idempotence guard).  A pointer not
produced by the allocator dereferences unspecified memory in C; the model
makes it a no-op, and no claim depends on it. -/
def arfree (a : ThreadArena) (ptr : Option Nat) : ThreadArena :=
  match ptr with
  | none => a
  | some p =>
    let b := p - headerSize
    match lookupHdr a.headers b with
    | none => a
    | some h => if h.freed then a else freelist_insert_and_coalesce a b

/-- The function `arcalloc(num, size)`: explicit overflow guard
`size != 0 && num > SIZE_MAX / size`, then `armalloc(num * size)` and
`memset(ptr, 0, total)` on success.  Under the guard the product does not
wrap, so the `Nat` product is the `size_t` product. -/
def arcalloc (ok : Nat → Bool) (a : ThreadArena) (num size : Nat) :
    Option Nat × ThreadArena :=
  if size ≠ 0 ∧ num > SIZE_MAX / size then (none, a)
  else
    let total := num * size
    match armalloc ok a total with
    | (some p, a1) => (some p, { a1 with mem := memZero a1.mem p total })
    | (none, a1) => (none, a1)

/-- The function `arrealloc(ptr, new_size)`.  A `none` pointer delegates to `armalloc`; shrink (or
equal) requests rewrite the header size in place; growth allocates a new
block, copies `header->size` bytes, and frees the old block.  A pointer with
no header is unspecified in C; the model fails without touching the arena. -/
def arrealloc (ok : Nat → Bool) (a : ThreadArena) (ptr : Option Nat)
    (new_size : Nat) : Option Nat × ThreadArena :=
  match ptr with
  | none => armalloc ok a new_size
  | some p =>
    let b := p - headerSize
    match lookupHdr a.headers b with
    | none => (none, a)
    | some h =>
      let aligned_new := ALIGN new_size
      if aligned_new ≤ h.size then
        (some p,
          { a with headers := updateHdr a.headers b fun h0 => { h0 with size := aligned_new } })
      else
        match armalloc ok a new_size with
        | (none, a1) => (none, a1)
        | (some np, a1) =>
          let a2 := { a1 with mem := memCopy a1.mem np p h.size }
          (some np, arfree a2 (some p))

/-- The function `arreset()`: drop `offset` to zero and clear the free list; the buffer
(and `capacity`) are retained.  The stale header bytes left in the recycled
bump region are dead storage (they will be overwritten by future bump
allocations), so the model drops them. -/
def arreset (a : ThreadArena) : ThreadArena :=
  { a with offset := 0, freelist := [], headers := [] }

/-- One allocator call, for reasoning about arbitrary call sequences. -/
inductive ArOp where
  | malloc (size : Nat)
  | calloc (num size : Nat)
  | realloc (p : Option Nat) (new_size : Nat)
  | free (p : Option Nat)
  | reset
deriving Repr

/-- Apply one allocator call to the arena (dropping the returned pointer). -/
def runOp (ok : Nat → Bool) (a : ThreadArena) : ArOp → ThreadArena
  | .malloc s => (armalloc ok a s).2
  | .calloc n s => (arcalloc ok a n s).2
  | .realloc p s => (arrealloc ok a p s).2
  | .free p => arfree a p
  | .reset => arreset a

/-- Apply a sequence of allocator calls. -/
def run (ok : Nat → Bool) (a : ThreadArena) : List ArOp → ThreadArena
  | [] => a
  | op :: ops => run ok (runOp ok a op) ops

/-- An oracle under which every backing (re)allocation succeeds. -/
def okTrue : Nat → Bool := fun _ => true

/-- An oracle under which every backing (re)allocation fails. -/
def okFalse : Nat → Bool := fun _ => false

/-! ## Basic facts about the alignment helper -/

theorem maxAlignSize_pos : 0 < maxAlignSize := by decide

theorem ALIGN_ge (x : Nat) : x ≤ ALIGN x := by
  have h := Nat.mod_le (x + (maxAlignSize - 1)) maxAlignSize
  have h2 : (x + (maxAlignSize - 1)) % maxAlignSize < maxAlignSize :=
    Nat.mod_lt _ maxAlignSize_pos
  unfold ALIGN
  omega

theorem ALIGN_mod (x : Nat) : ALIGN x % maxAlignSize = 0 := by
  unfold ALIGN
  have h := Nat.div_add_mod (x + (maxAlignSize - 1)) maxAlignSize
  have h2 : x + (maxAlignSize - 1) - (x + (maxAlignSize - 1)) % maxAlignSize
      = maxAlignSize * ((x + (maxAlignSize - 1)) / maxAlignSize) := by omega
  rw [h2, Nat.mul_mod_right]

/-- Below the wrap-around point the `size_t` computation of `ALIGN` agrees
with the exact one. -/
theorem ALIGN64_eq_ALIGN (x : Nat) (h : x + (maxAlignSize - 1) < 2 ^ 64) :
    ALIGN64 x = ALIGN x := by
  unfold ALIGN64 ALIGN
  rw [Nat.mod_eq_of_lt h]

/-- At `x = 2^64 - 1` the `size_t` sum `x + 31` wraps, and the macro yields
`0 < x`: the "`align(s) ≥ s`" reading fails in wrapping arithmetic. -/
theorem ALIGN64_wraps : ALIGN64 (2 ^ 64 - 1) = 0 ∧ ALIGN64 (2 ^ 64 - 1) < 2 ^ 64 - 1 := by
  constructor <;> decide

/-! ## Basic facts about the header map -/

theorem lookupHdr_mem {hs : Headers} {p : Nat} {h : BlockHeader}
    (hl : lookupHdr hs p = some h) : (p, h) ∈ hs := by
  induction hs with
  | nil => simp [lookupHdr] at hl
  | cons e t ih =>
    unfold lookupHdr at hl
    by_cases he : e.1 = p
    · rw [if_pos he] at hl
      cases hl
      have he2 : e = (p, e.2) := by cases e; simpa using he
      exact he2 ▸ List.mem_cons_self e t
    · rw [if_neg he] at hl
      exact List.mem_cons_of_mem _ (ih hl)

theorem lookupHdr_eq_none {hs : Headers} {p : Nat}
    (h : ∀ e ∈ hs, e.1 ≠ p) : lookupHdr hs p = none := by
  induction hs with
  | nil => rfl
  | cons e t ih =>
    unfold lookupHdr
    rw [if_neg (h e (List.mem_cons_self e t))]
    exact ih fun e' he' => h e' (List.mem_cons_of_mem _ he')

theorem lookupHdr_isSome_of_mem {hs : Headers} {e : Nat × BlockHeader}
    (h : e ∈ hs) : ∃ h', lookupHdr hs e.1 = some h' := by
  induction hs with
  | nil => simp at h
  | cons e' t ih =>
    by_cases he : e'.1 = e.1
    · exact ⟨e'.2, by unfold lookupHdr; rw [if_pos he]⟩
    · rcases List.mem_cons.mp h with rfl | hmem
      · exact absurd rfl he
      · rcases ih hmem with ⟨h', hh⟩
        exact ⟨h', by unfold lookupHdr; rw [if_neg he]; exact hh⟩

theorem lookupHdr_update (hs : Headers) (b : Nat) (f : BlockHeader → BlockHeader)
    (x : Nat) :
    lookupHdr (updateHdr hs b f) x =
      if x = b then (lookupHdr hs b).map f else lookupHdr hs x := by
  induction hs with
  | nil => simp [lookupHdr, updateHdr]
  | cons e t ih =>
    simp only [updateHdr, lookupHdr]
    by_cases he : e.1 = b
    · by_cases hx : x = b
      · subst hx
        simp [he, lookupHdr]
      · have hex : ¬ e.1 = x := fun hc => hx (hc ▸ he)
        have hbx : ¬ b = x := fun hc => hx hc.symm
        simp [he, hx, hex, hbx, ih]
    · by_cases hx : x = b
      · subst hx
        have hex : ¬ e.1 = x := he
        simp [he, hex, ih]
      · simp only [he, if_false, ite_false]
        by_cases hex : e.1 = x
        · simp [hex, hx]
        · simp [hex, hx, ih]

theorem lookupHdr_erase (hs : Headers) (b : Nat) (x : Nat) :
    lookupHdr (eraseHdr hs b) x =
      if x = b then none else lookupHdr hs x := by
  induction hs with
  | nil => simp [lookupHdr, eraseHdr]
  | cons e t ih =>
    simp only [eraseHdr, lookupHdr]
    by_cases he : e.1 = b
    · by_cases hx : x = b
      · subst hx
        simp [he, ih]
      · have hex : ¬ e.1 = x := fun hc => hx (hc ▸ he)
        have hbx : ¬ b = x := fun hc => hx hc.symm
        simp [he, hx, hex, hbx, ih]
    · by_cases hex : e.1 = x
      · have hx : ¬ x = b := fun hc => he (hex.symm ▸ hc ▸ rfl)
        simp [he, hex, hx, lookupHdr]
      · simp [he, hex, ih, lookupHdr]

theorem lookupHdr_append (l₁ l₂ : Headers) (p : Nat) :
    lookupHdr (l₁ ++ l₂) p =
      match lookupHdr l₁ p with
      | some h => some h
      | none => lookupHdr l₂ p := by
  induction l₁ with
  | nil => simp [lookupHdr]
  | cons e t ih =>
    simp only [List.cons_append, lookupHdr]
    by_cases he : e.1 = p
    · simp [he]
    · simp [he, ih]

theorem updateHdr_eq_map (hs : Headers) (b : Nat) (f : BlockHeader → BlockHeader) :
    updateHdr hs b f = hs.map fun e => if e.1 = b then (e.1, f e.2) else e := by
  induction hs with
  | nil => rfl
  | cons e t ih => unfold updateHdr; rw [ih]; rfl

theorem eraseHdr_eq_filter (hs : Headers) (b : Nat) :
    eraseHdr hs b = hs.filter fun e => !(e.1 == b) := by
  induction hs with
  | nil => rfl
  | cons e t ih =>
    unfold eraseHdr
    rw [ih, List.filter_cons]
    by_cases he : e.1 = b
    · simp [he]
    · simp [he]

theorem mem_updateHdr {hs : Headers} {b : Nat} {f : BlockHeader → BlockHeader}
    {e : Nat × BlockHeader} (h : e ∈ updateHdr hs b f) :
    (e ∈ hs ∧ e.1 ≠ b) ∨ ∃ h0, (b, h0) ∈ hs ∧ e = (b, f h0) := by
  rw [updateHdr_eq_map] at h
  rcases List.mem_map.mp h with ⟨e0, he0, heq⟩
  by_cases hb : e0.1 = b
  · right
    refine ⟨e0.2, ?_, ?_⟩
    · have : e0 = (b, e0.2) := by cases e0; simpa using hb
      exact this ▸ he0
    · rw [← heq, if_pos hb, hb]
  · left
    rw [← heq, if_neg hb]
    exact ⟨he0, hb⟩

theorem mem_eraseHdr {hs : Headers} {b : Nat} {e : Nat × BlockHeader}
    (h : e ∈ eraseHdr hs b) : e ∈ hs ∧ e.1 ≠ b := by
  rw [eraseHdr_eq_filter] at h
  have := List.of_mem_filter h
  refine ⟨List.mem_of_mem_filter h, ?_⟩
  simpa using this

theorem hdrSize_update_of_size_eq {hs : Headers} {b : Nat}
    {f : BlockHeader → BlockHeader} (hf : ∀ h, (f h).size = h.size) (x : Nat) :
    hdrSize (updateHdr hs b f) x = hdrSize hs x := by
  unfold hdrSize
  rw [lookupHdr_update]
  by_cases hx : x = b
  · subst hx
    cases lookupHdr hs x with
    | none => simp
    | some h => simp [hf]
  · rw [if_neg hx]

theorem hdrFreed_update_of_freed_eq {hs : Headers} {b : Nat}
    {f : BlockHeader → BlockHeader} (hf : ∀ h, (f h).freed = h.freed) (x : Nat) :
    hdrFreed (updateHdr hs b f) x = hdrFreed hs x := by
  unfold hdrFreed
  rw [lookupHdr_update]
  by_cases hx : x = b
  · subst hx
    cases lookupHdr hs x with
    | none => simp
    | some h => simp [hf]
  · rw [if_neg hx]

/-! ## The first-fit scan as `find?`/`eraseP` -/

theorem scanFit_eq (hs : Headers) (al : Nat) (fl : List Nat) :
    scanFit hs al fl =
      match fl.find? (fitPred hs al) with
      | some q => some (q, fl.eraseP (fitPred hs al))
      | none => none := by
  induction fl with
  | nil => rfl
  | cons q rest ih =>
    unfold scanFit
    rw [List.find?_cons, List.eraseP_cons]
    by_cases hq : fitPred hs al q = true
    · simp [hq]
    · have hq' : fitPred hs al q = false := by simpa using hq
      rw [hq']
      simp only [cond_false]
      rw [ih]
      cases hfind : rest.find? (fitPred hs al) with
      | none => simp
      | some r => simp

/-- Decomposition produced by a successful scan: the unlinked node is the
first link passing the first-fit test, and the rest of the list is kept. -/
theorem scanFit_some {hs : Headers} {al : Nat} {fl : List Nat} {q : Nat}
    {fl' : List Nat} (h : scanFit hs al fl = some (q, fl')) :
    ∃ l₁ l₂, fl = l₁ ++ q :: l₂ ∧ fl' = l₁ ++ l₂ ∧ fitPred hs al q = true ∧
      ∀ x ∈ l₁, fitPred hs al x = false := by
  induction fl generalizing fl' with
  | nil => simp [scanFit] at h
  | cons x rest ih =>
    unfold scanFit at h
    by_cases hx : fitPred hs al x = true
    · rw [if_pos hx] at h
      cases h
      exact ⟨[], rest, rfl, rfl, hx, by simp⟩
    · rw [if_neg hx] at h
      cases hrec : scanFit hs al rest with
      | none => rw [hrec] at h; simp at h
      | some rl =>
        rw [hrec] at h
        cases rl with
        | mk r l =>
          simp only at h
          cases h
          rcases ih hrec with ⟨l₁, l₂, hfl, hfl', hq, hall⟩
          refine ⟨x :: l₁, l₂, by rw [hfl]; rfl, by rw [hfl']; rfl, hq, ?_⟩
          intro y hy
          rcases List.mem_cons.mp hy with rfl | hy
          · simpa using hx
          · exact hall y hy

/-! ## The layout invariant -/

/-- One past the last byte of the block whose header entry is `e`
(header address + header size + recorded payload size). -/
def hdrEnd (e : Nat × BlockHeader) : Nat := e.1 + headerSize + e.2.size

/-- Block layout order: a block ends before (or exactly where) the next
header begins.  Gaps are allowed — `arrealloc`'s shrink-in-place leaves one. -/
def hdrRel (x y : Nat × BlockHeader) : Prop := hdrEnd x ≤ y.1

/-- Free-list geometric order between two listed header addresses: the first
block ends strictly before the second header begins, i.e. the addresses are
strictly increasing and the memory ranges do not touch. -/
def flRel (hs : Headers) (p q : Nat) : Prop := p + headerSize + hdrSize hs p < q

/-- The state invariant every allocator operation preserves:
blocks are laid out in address order without overlap, all blocks live below
the bump `offset`, every free-list node's header says `freed`, and the free
list is strictly address-ascending with no two listed blocks touching. -/
structure ArWF (a : ThreadArena) : Prop where
  ordered : a.headers.Pairwise hdrRel
  bounded : ∀ e ∈ a.headers, hdrEnd e ≤ a.offset
  flMem : ∀ p ∈ a.freelist, hdrFreed a.headers p = true
  flChain : a.freelist.Pairwise (flRel a.headers)

theorem flRel_lt {hs : Headers} {p q : Nat} (h : flRel hs p q) : p < q := by
  unfold flRel at h
  have : 0 < headerSize := by decide
  omega

theorem hdrRel_lt {x y : Nat × BlockHeader} (h : hdrRel x y) : x.1 < y.1 := by
  unfold hdrRel hdrEnd at h
  have : 0 < headerSize := by decide
  omega

theorem hdrFreed_some {hs : Headers} {p : Nat} (h : hdrFreed hs p = true) :
    ∃ hd, lookupHdr hs p = some hd ∧ hd.freed = true := by
  unfold hdrFreed at h
  cases hl : lookupHdr hs p with
  | none => rw [hl] at h; simp at h
  | some hd => rw [hl] at h; exact ⟨hd, rfl, h⟩

theorem pairwise_mem_cases {α : Type} {R : α → α → Prop} {l : List α}
    (hp : l.Pairwise R) {x y : α} (hx : x ∈ l) (hy : y ∈ l) :
    x = y ∨ R x y ∨ R y x := by
  induction l with
  | nil => simp at hx
  | cons e t ih =>
    rcases List.pairwise_cons.mp hp with ⟨he, ht⟩
    rcases List.mem_cons.mp hx with rfl | hx'
    · rcases List.mem_cons.mp hy with rfl | hy'
      · exact Or.inl rfl
      · exact Or.inr (Or.inl (he y hy'))
    · rcases List.mem_cons.mp hy with rfl | hy'
      · exact Or.inr (Or.inr (he x hx'))
      · exact ih ht hx' hy'

/-- Geometric consequence of the layout order: of two distinct blocks, the
lower-addressed one ends at or before the higher-addressed one begins. -/
theorem hdr_geom {hs : Headers} (ho : hs.Pairwise hdrRel) {p q : Nat}
    {hp hq : BlockHeader} (hlp : lookupHdr hs p = some hp)
    (hlq : lookupHdr hs q = some hq) (hpq : p < q) :
    p + headerSize + hp.size ≤ q := by
  have hmp := lookupHdr_mem hlp
  have hmq := lookupHdr_mem hlq
  rcases pairwise_mem_cases ho hmp hmq with heq | hr | hr
  · cases heq; omega
  · exact hr
  · exact absurd (hdrRel_lt hr) (by omega)

/-- The free list of a well-formed arena is strictly sorted, hence has no
duplicate nodes. -/
theorem flChain_sorted {hs : Headers} {fl : List Nat}
    (h : fl.Pairwise (flRel hs)) : fl.Pairwise (· < ·) :=
  h.imp fun hr => flRel_lt hr

theorem flChain_nodup {hs : Headers} {fl : List Nat}
    (h : fl.Pairwise (flRel hs)) : fl.Nodup :=
  (flChain_sorted h).imp fun hr => Nat.ne_of_lt hr

/-! ## Helper facts for header-map edits that preserve sizes -/

theorem hdrSize_eq_of_lookup_append {l₁ l₂ : Headers} {p : Nat}
    {h : BlockHeader} (hl : lookupHdr l₁ p = some h) :
    hdrSize (l₁ ++ l₂) p = hdrSize l₁ p := by
  unfold hdrSize
  rw [lookupHdr_append, hl]

theorem hdrFreed_eq_of_lookup_append {l₁ l₂ : Headers} {p : Nat}
    {h : BlockHeader} (hl : lookupHdr l₁ p = some h) :
    hdrFreed (l₁ ++ l₂) p = hdrFreed l₁ p := by
  unfold hdrFreed
  rw [lookupHdr_append, hl]

theorem pairwise_hdrRel_update {hs : Headers} {b : Nat}
    {f : BlockHeader → BlockHeader} (hf : ∀ h, (f h).size = h.size)
    (ho : hs.Pairwise hdrRel) : (updateHdr hs b f).Pairwise hdrRel := by
  rw [updateHdr_eq_map]
  rw [List.pairwise_map]
  refine ho.imp ?_
  intro x y hr
  unfold hdrRel hdrEnd at *
  by_cases hx : x.1 = b <;> by_cases hy : y.1 = b <;>
    simp [hx, hy, hf] <;> omega

theorem bounded_update {a : ThreadArena} {b : Nat}
    {f : BlockHeader → BlockHeader} (hf : ∀ h, (f h).size = h.size)
    (hb : ∀ e ∈ a.headers, hdrEnd e ≤ a.offset) :
    ∀ e ∈ updateHdr a.headers b f, hdrEnd e ≤ a.offset := by
  intro e he
  rcases mem_updateHdr he with ⟨he', _⟩ | ⟨h0, hm, rfl⟩
  · exact hb e he'
  · have := hb (b, h0) hm
    unfold hdrEnd at *
    simp only [hf]
    simpa using this

/-- Allocation preserves the layout invariant. -/
theorem armalloc_wf (ok : Nat → Bool) (a : ThreadArena) (s : Nat)
    (w : ArWF a) : ArWF (armalloc ok a s).2 := by
  unfold armalloc
  cases hscan : scanFit a.headers (ALIGN s) a.freelist with
  | some qfl =>
    cases qfl with
    | mk q fl' =>
      simp only [hscan]
      rcases scanFit_some hscan with ⟨l₁, l₂, hfl, hfl', hq, hall⟩
      have hsubl : fl'.Sublist a.freelist := by
        rw [hfl, hfl']
        exact (List.sublist_cons_self q l₂).append_left l₁
      have hnodup := flChain_nodup w.flChain
      have hqnot : q ∉ l₁ ++ l₂ := by
        rw [hfl] at hnodup
        intro hmem
        rcases List.mem_append.mp hmem with hm | hm
        · rcases List.pairwise_append.mp hnodup with ⟨_, _, hcross⟩
          exact hcross q hm q (List.mem_cons_self q l₂) rfl
        · rcases List.pairwise_append.mp hnodup with ⟨_, hqlist, _⟩
          rcases List.pairwise_cons.mp hqlist with ⟨hqall, _⟩
          exact hqall q hm rfl
      refine ⟨?_, ?_, ?_, ?_⟩
      · exact pairwise_hdrRel_update (by intro h; rfl) w.ordered
      · exact bounded_update (by intro h; rfl) w.bounded
      · intro p hp
        have hpq : p ≠ q := by
          intro hc
          subst hc
          exact hqnot (hfl' ▸ hp)
        have : hdrFreed (updateHdr a.headers q fun h => { h with freed := false }) p
            = hdrFreed a.headers p := by
          unfold hdrFreed
          rw [lookupHdr_update, if_neg hpq]
        rw [this]
        exact w.flMem p (List.Sublist.mem hp hsubl)
      · have hch : fl'.Pairwise (flRel a.headers) := w.flChain.sublist hsubl
        refine hch.imp_of_mem ?_
        intro p p' hp hp' hr
        unfold flRel at *
        rwa [hdrSize_update_of_size_eq (by intro h; rfl)]
  | none =>
    simp only [hscan]
    have hbump : ∀ a1 : ThreadArena, a1.headers = a.headers → a1.offset = a.offset →
        a1.freelist = a.freelist →
        ArWF { a1 with
          headers := a1.headers ++ [(a1.offset, { size := ALIGN s, freed := false })]
          offset := a1.offset + (ALIGN s + headerSize) } := by
      intro a1 hh hoff hfl
      rw [hh, hoff, hfl]
      refine ⟨?_, ?_, ?_, ?_⟩
      · rw [List.pairwise_append]
        refine ⟨w.ordered, by simp, ?_⟩
        intro e he e' he'
        simp only [List.mem_singleton] at he'
        subst he'
        exact w.bounded e he
      · intro e he
        dsimp only at he ⊢
        rcases List.mem_append.mp he with hm | hm
        · have := w.bounded e hm
          omega
        · simp only [List.mem_singleton] at hm
          subst hm
          unfold hdrEnd
          simp
          omega
      · intro p hp
        rcases hdrFreed_some (w.flMem p hp) with ⟨hd, hl, _⟩
        rw [hdrFreed_eq_of_lookup_append hl]
        exact w.flMem p hp
      · refine w.flChain.imp_of_mem ?_
        intro p p' hp hp' hr
        rcases hdrFreed_some (w.flMem p hp) with ⟨hd, hl, _⟩
        unfold flRel at *
        rwa [hdrSize_eq_of_lookup_append hl]
    cases hgrow : (if a.offset + (ALIGN s + headerSize) > a.capacity
        then arena_expand ok a (a.offset + (ALIGN s + headerSize)) else some a) with
    | none => exact w
    | some a1 =>
      simp only
      have ha1 : a1.headers = a.headers ∧ a1.offset = a.offset ∧
          a1.freelist = a.freelist := by
        by_cases hc : a.offset + (ALIGN s + headerSize) > a.capacity
        · rw [if_pos hc] at hgrow
          unfold arena_expand at hgrow
          simp only at hgrow
          split at hgrow
          · cases hgrow; exact ⟨rfl, rfl, rfl⟩
          · cases hgrow
        · rw [if_neg hc] at hgrow
          cases hgrow
          exact ⟨rfl, rfl, rfl⟩
      exact hbump a1 ha1.1 ha1.2.1 ha1.2.2

/-! ## Facts about coalescing two adjacent blocks -/

/-- In an ordered header list, keys are unique, so membership determines the
result of `lookupHdr`. -/
theorem lookup_of_mem_ordered {hs : Headers} (ho : hs.Pairwise hdrRel)
    {p : Nat} {h : BlockHeader} (hm : (p, h) ∈ hs) :
    lookupHdr hs p = some h := by
  induction hs with
  | nil => simp at hm
  | cons e t ih =>
    rcases List.pairwise_cons.mp ho with ⟨he, ht⟩
    rcases List.mem_cons.mp hm with heq | hm'
    · rw [← heq]
      unfold lookupHdr
      rw [if_pos rfl]
    · have hne : e.1 ≠ p := by
        have := hdrRel_lt (he (p, h) hm')
        omega
      unfold lookupHdr
      rw [if_neg hne]
      exact ih ht hm'

theorem hdrSize_of_lookup {hs : Headers} {p : Nat} {h : BlockHeader}
    (hl : lookupHdr hs p = some h) : hdrSize hs p = h.size := by
  unfold hdrSize
  rw [hl]

theorem hdrFreed_of_lookup {hs : Headers} {p : Nat} {h : BlockHeader}
    (hl : lookupHdr hs p = some h) : hdrFreed hs p = h.freed := by
  unfold hdrFreed
  rw [hl]

theorem mergeBlocks_lookup_left {hs : Headers} {x y : Nat} {hx : BlockHeader}
    (hlx : lookupHdr hs x = some hx) (hxy : x ≠ y) :
    lookupHdr (mergeBlocks hs x y) x =
      some { hx with size := hx.size + headerSize + hdrSize hs y } := by
  unfold mergeBlocks
  rw [lookupHdr_erase, if_neg hxy, lookupHdr_update, if_pos rfl, hlx]
  rfl

theorem mergeBlocks_lookup_right {hs : Headers} {x y : Nat} :
    lookupHdr (mergeBlocks hs x y) y = none := by
  unfold mergeBlocks
  rw [lookupHdr_erase, if_pos rfl]

theorem mergeBlocks_lookup_other {hs : Headers} {x y z : Nat}
    (hzx : z ≠ x) (hzy : z ≠ y) :
    lookupHdr (mergeBlocks hs x y) z = lookupHdr hs z := by
  unfold mergeBlocks
  rw [lookupHdr_erase, if_neg hzy, lookupHdr_update, if_neg hzx]

theorem mergeBlocks_hdrSize_other {hs : Headers} {x y z : Nat}
    (hzx : z ≠ x) (hzy : z ≠ y) :
    hdrSize (mergeBlocks hs x y) z = hdrSize hs z := by
  unfold hdrSize
  rw [mergeBlocks_lookup_other hzx hzy]

theorem mergeBlocks_hdrFreed_other {hs : Headers} {x y z : Nat}
    (hzx : z ≠ x) (hzy : z ≠ y) :
    hdrFreed (mergeBlocks hs x y) z = hdrFreed hs z := by
  unfold hdrFreed
  rw [mergeBlocks_lookup_other hzx hzy]

/-- The entry rewrite performed by `mergeBlocks` on the absorbing block. -/
def absorbFn (hs : Headers) (x y : Nat) (e : Nat × BlockHeader) : Nat × BlockHeader :=
  if e.1 = x then (e.1, { e.2 with size := e.2.size + headerSize + hdrSize hs y }) else e

theorem absorbFn_fst (hs : Headers) (x y : Nat) (e : Nat × BlockHeader) :
    (absorbFn hs x y e).1 = e.1 := by
  unfold absorbFn
  split <;> rfl

theorem mergeBlocks_eq_filter_map (hs : Headers) (x y : Nat) :
    mergeBlocks hs x y =
      (hs.map (absorbFn hs x y)).filter fun e => !(e.1 == y) := by
  unfold mergeBlocks
  rw [eraseHdr_eq_filter, updateHdr_eq_map]
  rfl

/-- Coalescing the block at `x` with the physically adjacent block at `y`
keeps the headers laid out in order: the enlarged block ends exactly where
the absorbed block ended, and no other block lay strictly between them. -/
theorem mergeBlocks_ordered {hs : Headers} {x y : Nat} {hx hy : BlockHeader}
    (ho : hs.Pairwise hdrRel) (hlx : lookupHdr hs x = some hx)
    (hly : lookupHdr hs y = some hy)
    (hadj : x + headerSize + hx.size = y) :
    (mergeBlocks hs x y).Pairwise hdrRel := by
  have hhdr : 0 < headerSize := by decide
  have hxy : x < y := by omega
  rw [mergeBlocks_eq_filter_map]
  have hstep : hs.Pairwise (fun u v =>
      (absorbFn hs x y u).1 = y ∨ (absorbFn hs x y v).1 = y ∨
        hdrRel (absorbFn hs x y u) (absorbFn hs x y v)) := by
    refine ho.imp_of_mem ?_
    intro u v hu hv hr
    rw [absorbFn_fst, absorbFn_fst]
    by_cases huy : u.1 = y
    · exact Or.inl huy
    by_cases hvy : v.1 = y
    · exact Or.inr (Or.inl hvy)
    refine Or.inr (Or.inr ?_)
    by_cases hux : u.1 = x
    · -- u is the absorbing block: its new end is the absorbed block's end
      have hu2 : u.2 = hx := by
        have : lookupHdr hs u.1 = some u.2 := lookup_of_mem_ordered ho (by cases u; exact hu)
        rw [hux] at this
        rw [hlx] at this
        exact (Option.some_injective _ this).symm
      have hv2 : lookupHdr hs v.1 = some v.2 := lookup_of_mem_ordered ho (by cases v; exact hv)
      -- v lies at or beyond y's start, and is not y itself, so beyond y's end
      have hvge : y ≤ v.1 := by
        have hr2 := hr
        unfold hdrRel hdrEnd at hr2
        rw [hu2] at hr2
        omega
      have hvgt : y < v.1 := lt_of_le_of_ne hvge (fun hc => hvy hc.symm)
      have hgeom := hdr_geom ho hly hv2 hvgt
      unfold absorbFn hdrRel hdrEnd
      rw [if_pos hux]
      by_cases hvx : v.1 = x
      · exact absurd (hvx ▸ hvgt) (by omega)
      · rw [if_neg hvx]
        simp only [hu2]
        rw [hdrSize_of_lookup hly]
        omega
    · -- u is unchanged; `hdrRel` only reads the left size and the right key
      unfold absorbFn hdrRel hdrEnd at *
      rw [if_neg hux]
      by_cases hvx : v.1 = x
      · rw [if_pos hvx]
        simpa using hr
      · rw [if_neg hvx]
        exact hr
  have hmapped : (hs.map (absorbFn hs x y)).Pairwise
      (fun u v => u.1 = y ∨ v.1 = y ∨ hdrRel u v) :=
    List.pairwise_map.mpr hstep
  refine (hmapped.filter _).imp_of_mem ?_
  intro u v hu hv hr
  have huy : ¬ (u.1 = y) := by
    have := List.of_mem_filter hu
    simpa using this
  have hvy : ¬ (v.1 = y) := by
    have := List.of_mem_filter hv
    simpa using this
  rcases hr with h1 | h2 | h3
  · exact absurd h1 huy
  · exact absurd h2 hvy
  · exact h3

/-- Coalescing does not push any block past the bump offset: the enlarged
block ends exactly where the absorbed block ended. -/
theorem mergeBlocks_bounded {hs : Headers} {x y : Nat} {hx hy : BlockHeader}
    {off : Nat} (ho : hs.Pairwise hdrRel) (hlx : lookupHdr hs x = some hx)
    (hly : lookupHdr hs y = some hy)
    (hadj : x + headerSize + hx.size = y)
    (hb : ∀ e ∈ hs, hdrEnd e ≤ off) :
    ∀ e ∈ mergeBlocks hs x y, hdrEnd e ≤ off := by
  intro e he
  unfold mergeBlocks at he
  rcases mem_eraseHdr he with ⟨he', hey⟩
  rcases mem_updateHdr he' with ⟨hm, _⟩ | ⟨h0, hm, rfl⟩
  · exact hb e hm
  · have h0x : h0 = hx := by
      have := lookup_of_mem_ordered ho hm
      rw [hlx] at this
      exact (Option.some_injective _ this).symm
    subst h0x
    have hyend : y + headerSize + hy.size ≤ off := by
      have := hb (y, hy) (lookupHdr_mem hly)
      unfold hdrEnd at this
      simpa using this
    unfold hdrEnd
    simp only
    rw [hdrSize_of_lookup hly]
    omega

theorem mem_dropWhile_ge {l : List Nat} {b : Nat} (hsort : l.Pairwise (· < ·))
    (hnot : b ∉ l) : ∀ x ∈ l.dropWhile (fun q => decide (q < b)), b < x := by
  induction l with
  | nil => simp
  | cons a t ih =>
    rcases List.pairwise_cons.mp hsort with ⟨ha, ht⟩
    by_cases hab : a < b
    · rw [List.dropWhile_cons_of_pos (by simpa using hab)]
      exact ih ht (fun hc => hnot (List.mem_cons_of_mem _ hc))
    · rw [List.dropWhile_cons_of_neg (by simpa using hab)]
      intro x hx
      rcases List.mem_cons.mp hx with rfl | hx'
      · have : b ≠ x := fun hc => hnot (hc ▸ List.mem_cons_self x t)
        omega
      · have := ha x hx'
        omega

theorem mem_takeWhile_lt {l : List Nat} {b : Nat} :
    ∀ x ∈ l.takeWhile (fun q => decide (q < b)), x < b := by
  intro x hx
  simpa using List.mem_takeWhile_imp hx

theorem insert_coalesce_wf (a : ThreadArena) (b : Nat) (hb : BlockHeader)
    (w : ArWF a) (hlk : lookupHdr a.headers b = some hb) (hfr : hb.freed = false) :
    ArWF (freelist_insert_and_coalesce a b) := by
  have hhdr : 0 < headerSize := by decide
  have hbNot : b ∉ a.freelist := by
    intro hmem
    have hx := w.flMem b hmem
    rw [hdrFreed_of_lookup hlk, hfr] at hx
    exact Bool.false_ne_true hx
  have hflSort : a.freelist.Pairwise (· < ·) := flChain_sorted w.flChain
  unfold freelist_insert_and_coalesce
  dsimp only
  set hs0 := updateHdr a.headers b (fun h => { h with freed := true }) with hhs0
  set L := a.freelist.takeWhile (fun q => decide (q < b)) with hLdef
  set R := a.freelist.dropWhile (fun q => decide (q < b)) with hRdef
  have hLR : L ++ R = a.freelist := List.takeWhile_append_dropWhile _ _
  have hLlt : ∀ x ∈ L, x < b := mem_takeWhile_lt
  have hRgt : ∀ x ∈ R, b < x := mem_dropWhile_ge hflSort hbNot
  have hLmem : ∀ x ∈ L, x ∈ a.freelist := fun x hx => hLR ▸ List.mem_append_left R hx
  have hRmem : ∀ x ∈ R, x ∈ a.freelist := fun x hx => hLR ▸ List.mem_append_right L hx
  have hflLR : (L ++ R).Pairwise (flRel a.headers) := by rw [hLR]; exact w.flChain
  have hLpair : L.Pairwise (flRel a.headers) := (List.pairwise_append.mp hflLR).1
  have hRpair : R.Pairwise (flRel a.headers) := (List.pairwise_append.mp hflLR).2.1
  have hCross : ∀ x ∈ L, ∀ y ∈ R, flRel a.headers x y := (List.pairwise_append.mp hflLR).2.2
  have hflLook : ∀ p ∈ a.freelist, ∃ hp, lookupHdr a.headers p = some hp ∧ hp.freed = true :=
    fun p hp => hdrFreed_some (w.flMem p hp)
  have h0size : ∀ z, hdrSize hs0 z = hdrSize a.headers z :=
    hdrSize_update_of_size_eq (by intro h; rfl)
  have h0lookB : lookupHdr hs0 b = some { hb with freed := true } := by
    rw [hhs0, lookupHdr_update, if_pos rfl, hlk]; rfl
  have h0lookO : ∀ z, z ≠ b → lookupHdr hs0 z = lookupHdr a.headers z := by
    intro z hz
    rw [hhs0, lookupHdr_update, if_neg hz]
  have h0freedB : hdrFreed hs0 b = true := by
    rw [hdrFreed_of_lookup h0lookB]
  have ord0 : hs0.Pairwise hdrRel := pairwise_hdrRel_update (by intro h; rfl) w.ordered
  have bnd0 : ∀ e ∈ hs0, hdrEnd e ≤ a.offset := bounded_update (by intro h; rfl) w.bounded
  have h0sizeB : hdrSize hs0 b = hb.size := by
    rw [hdrSize_of_lookup h0lookB]
  -- geometry: every listed block left of `b` ends at or before `b`
  have hGeomL : ∀ p ∈ L, p + headerSize + hdrSize a.headers p ≤ b := by
    intro p hp
    rcases hflLook p (hLmem p hp) with ⟨hph, hpl, _⟩
    rw [hdrSize_of_lookup hpl]
    exact hdr_geom w.ordered hpl hlk (hLlt p hp)
  -- geometry: `b` ends at or before every listed block right of `b`
  have hGeomR : ∀ n ∈ R, b + headerSize + hb.size ≤ n := by
    intro n hn
    rcases hflLook n (hRmem n hn) with ⟨hnh, hnl, _⟩
    exact hdr_geom w.ordered hlk hnl (hRgt n hn)
  have h0freedO : ∀ x ∈ a.freelist, hdrFreed hs0 x = true := by
    intro x hx
    have hxb : x ≠ b := fun hc => hbNot (hc ▸ hx)
    have hsame : hdrFreed hs0 x = hdrFreed a.headers x := by
      unfold hdrFreed
      rw [h0lookO x hxb]
    rw [hsame]
    exact w.flMem x hx
  have h0rel : ∀ x y, flRel a.headers x y → flRel hs0 x y := by
    intro x y hxy
    unfold flRel at *
    rw [h0size]
    exact hxy
  have hLnodup : L.Nodup := flChain_nodup hLpair
  have hRnodup : R.Nodup := flChain_nodup hRpair
  cases hRc : R with
  | nil =>
    simp only
    cases hLast : L.getLast? with
    | none =>
      dsimp only
      have hLnil : L = [] := List.getLast?_eq_none_iff.mp hLast
      refine ⟨ord0, bnd0, ?_, ?_⟩
      · intro p hp
        rw [hLnil] at hp
        rcases List.mem_cons.mp hp with rfl | hfalse
        · exact h0freedB
        · simp at hfalse
      · rw [hLnil]
        simp
    | some p =>
      dsimp only
      rcases List.getLast?_eq_some_iff.mp hLast with ⟨L', hL'⟩
      have hpL : p ∈ L := by
        rw [hL']
        exact List.mem_append_right L' (List.mem_singleton.mpr rfl)
      have hpb : p ≠ b := by have := hLlt p hpL; omega
      rcases hflLook p (hLmem p hpL) with ⟨hp, hpl, hpfreed⟩
      have h0lookP : lookupHdr hs0 p = some hp := by rw [h0lookO p hpb]; exact hpl
      have hL'ne : ∀ x ∈ L', x ≠ p := by
        intro x hx
        have := (List.pairwise_append.mp (hL' ▸ hLnodup)).2.2
        exact this x hx p (List.mem_singleton.mpr rfl)
      have hL'rel : ∀ x ∈ L', flRel a.headers x p :=
        fun x hx => (List.pairwise_append.mp (hL' ▸ hLpair)).2.2 x hx p (List.mem_singleton.mpr rfl)
      have hL'pair : L'.Pairwise (flRel a.headers) := (List.pairwise_append.mp (hL' ▸ hLpair)).1
      have hL'mem : ∀ x ∈ L', x ∈ L := by
        intro x hx
        rw [hL']
        exact List.mem_append_left _ hx
      by_cases hcond : (hdrFreed hs0 p && decide (p + headerSize + hdrSize hs0 p = b)) = true
      · simp only [hcond]
        rw [if_pos trivial]
        have hadjP : p + headerSize + hp.size = b := by
          have h2 := (Bool.and_eq_true _ _).mp hcond
          have h3 := of_decide_eq_true h2.2
          rw [hdrSize_of_lookup h0lookP] at h3
          exact h3
        have ord2 := mergeBlocks_ordered ord0 h0lookP h0lookB hadjP
        have bnd2 := mergeBlocks_bounded ord0 h0lookP h0lookB hadjP bnd0
        refine ⟨ord2, bnd2, ?_, ?_⟩
        · intro x hx
          rw [List.append_nil] at hx
          by_cases hxp : x = p
          · subst hxp
            rw [hdrFreed_of_lookup (mergeBlocks_lookup_left h0lookP hpb)]
            exact hpfreed
          · have hxb : x ≠ b := by have := hLlt x hx; omega
            rw [mergeBlocks_hdrFreed_other hxp hxb]
            exact h0freedO x (hLmem x hx)
        · rw [List.append_nil, hL']
          rw [List.pairwise_append]
          refine ⟨?_, by simp, ?_⟩
          · refine hL'pair.imp_of_mem ?_
            intro u v hu hv huv
            have hub : u ≠ b := by have := hLlt u (hL'mem u hu); omega
            unfold flRel at *
            rw [mergeBlocks_hdrSize_other (hL'ne u hu) hub, h0size]
            exact huv
          · intro x hx y hy
            rcases List.mem_singleton.mp hy with rfl
            have hxb : x ≠ b := by have := hLlt x (hL'mem x hx); omega
            have := hL'rel x hx
            unfold flRel at *
            rw [mergeBlocks_hdrSize_other (hL'ne x hx) hxb, h0size]
            exact this
      · have hcf : (hdrFreed hs0 p && decide (p + headerSize + hdrSize hs0 p = b)) = false := by
          simpa using hcond
        simp only [hcf]
        rw [if_neg Bool.false_ne_true]
        refine ⟨ord0, bnd0, ?_, ?_⟩
        · intro x hx
          rcases List.mem_append.mp hx with hm | hm
          · exact h0freedO x (hLmem x hm)
          · rcases List.mem_cons.mp hm with rfl | hfalse
            · exact h0freedB
            · simp at hfalse
        · rw [List.pairwise_append]
          refine ⟨hLpair.imp_of_mem (fun hu hv huv => h0rel _ _ huv), by simp, ?_⟩
          intro x hx y hy
          rcases List.mem_cons.mp hy with hyb | hfalse
          · -- flRel hs0 x b for every x in L
            have hxle := hGeomL x hx
            unfold flRel
            rw [hyb, h0size]
            rcases List.mem_append.mp (hL' ▸ hx) with hm | hm
            · -- x strictly left of p: ends before p starts
              have := hL'rel x hm
              have hplt := hLlt p hpL
              unfold flRel at this
              omega
            · have hxeqp : x = p := List.mem_singleton.mp hm
              -- x = p: the failed predecessor-merge test says ends differ
              have hne : p + headerSize + hdrSize hs0 p ≠ b := by
                intro hc
                apply hcond
                rw [Bool.and_eq_true]
                exact ⟨h0freedO p (hLmem p hpL), decide_eq_true hc⟩
              have hple := hGeomL p hpL
              rw [h0size] at hne
              rw [hxeqp]
              omega
          · simp at hfalse
  | cons n ns =>
    simp only
    have hnR : n ∈ R := by rw [hRc]; exact List.mem_cons_self n ns
    have hnsR : ∀ m ∈ ns, m ∈ R := by
      intro m hm
      rw [hRc]
      exact List.mem_cons_of_mem n hm
    have hbn : b < n := hRgt n hnR
    have hnb : n ≠ b := by omega
    rcases hflLook n (hRmem n hnR) with ⟨hn, hnl, hnfreed⟩
    have h0lookN : lookupHdr hs0 n = some hn := by rw [h0lookO n hnb]; exact hnl
    have hnsrel : ∀ m ∈ ns, flRel a.headers n m := by
      intro m hm
      have := hRc ▸ hRpair
      exact (List.pairwise_cons.mp this).1 m hm
    have hnsne : ∀ m ∈ ns, m ≠ n := by
      intro m hm
      have := hRc ▸ hRnodup
      intro hc
      exact (List.pairwise_cons.mp this).1 m hm hc.symm
    have hnsgtb : ∀ m ∈ ns, b < m := fun m hm => hRgt m (hnsR m hm)
    by_cases hcondN : (hdrFreed hs0 n && decide (b + headerSize + hdrSize hs0 b = n)) = true
    · simp only [hcondN]
      rw [if_pos trivial]
      -- successor merge fires: block at `b` absorbs the block at `n`
      have hadjN : b + headerSize + hb.size = n := by
        have h2 := (Bool.and_eq_true _ _).mp hcondN
        have h3 := of_decide_eq_true h2.2
        rw [h0sizeB] at h3
        exact h3
      have ord1 := mergeBlocks_ordered ord0 h0lookB h0lookN hadjN
      have bnd1 := mergeBlocks_bounded ord0 h0lookB h0lookN hadjN bnd0
      have hs1lookB : lookupHdr (mergeBlocks hs0 b n) b =
          some { size := hb.size + headerSize + hdrSize hs0 n, freed := true } :=
        mergeBlocks_lookup_left h0lookB hnb.symm
      have hs1sizeB : hdrSize (mergeBlocks hs0 b n) b = hb.size + headerSize + hn.size := by
        rw [hdrSize_of_lookup hs1lookB, hdrSize_of_lookup h0lookN]
      have hs1freedB : hdrFreed (mergeBlocks hs0 b n) b = true := by
        rw [hdrFreed_of_lookup hs1lookB]
      have hs1endB : b + headerSize + hdrSize (mergeBlocks hs0 b n) b
          = n + headerSize + hn.size := by
        rw [hs1sizeB]
        omega
      have hs1freedNs : ∀ m ∈ ns, hdrFreed (mergeBlocks hs0 b n) m = true := by
        intro m hm
        have hmb : m ≠ b := by have := hnsgtb m hm; omega
        rw [mergeBlocks_hdrFreed_other hmb (hnsne m hm)]
        exact h0freedO m (hRmem m (hnsR m hm))
      have hs1sizeNs : ∀ m ∈ ns, hdrSize (mergeBlocks hs0 b n) m = hdrSize a.headers m := by
        intro m hm
        have hmb : m ≠ b := by have := hnsgtb m hm; omega
        rw [mergeBlocks_hdrSize_other hmb (hnsne m hm), h0size]
      have hs1relNs : ∀ m ∈ ns, flRel (mergeBlocks hs0 b n) b m := by
        intro m hm
        have := hnsrel m hm
        unfold flRel at *
        rw [hs1sizeB]
        rw [hdrSize_of_lookup hnl] at this
        omega
      have hnspair1 : ns.Pairwise (flRel (mergeBlocks hs0 b n)) := by
        have : ns.Pairwise (flRel a.headers) := by
          have := hRc ▸ hRpair
          exact (List.pairwise_cons.mp this).2
        refine this.imp_of_mem ?_
        intro u v hu hv huv
        unfold flRel at *
        rw [hs1sizeNs u hu]
        exact huv
      cases hLast : L.getLast? with
      | none =>
        dsimp only
        have hLnil : L = [] := List.getLast?_eq_none_iff.mp hLast
        refine ⟨ord1, bnd1, ?_, ?_⟩
        · intro x hx
          rw [hLnil] at hx
          rcases List.mem_cons.mp hx with rfl | hm
          · exact hs1freedB
          · exact hs1freedNs x hm
        · rw [hLnil]
          simp only [List.nil_append]
          rw [List.pairwise_cons]
          exact ⟨hs1relNs, hnspair1⟩
      | some p =>
        dsimp only
        rcases List.getLast?_eq_some_iff.mp hLast with ⟨L', hL'⟩
        have hpL : p ∈ L := by
          rw [hL']
          exact List.mem_append_right L' (List.mem_singleton.mpr rfl)
        have hpb : p ≠ b := by have := hLlt p hpL; omega
        have hpn : p ≠ n := by have := hLlt p hpL; omega
        rcases hflLook p (hLmem p hpL) with ⟨hp, hpl, hpfreed⟩
        have h0lookP : lookupHdr hs0 p = some hp := by rw [h0lookO p hpb]; exact hpl
        have hs1lookP : lookupHdr (mergeBlocks hs0 b n) p = some hp := by
          rw [mergeBlocks_lookup_other hpb hpn]
          exact h0lookP
        have hs1freedP : hdrFreed (mergeBlocks hs0 b n) p = true := by
          rw [hdrFreed_of_lookup hs1lookP]
          exact hpfreed
        have hL'ne : ∀ x ∈ L', x ≠ p := by
          intro x hx
          have := (List.pairwise_append.mp (hL' ▸ hLnodup)).2.2
          exact this x hx p (List.mem_singleton.mpr rfl)
        have hL'rel : ∀ x ∈ L', flRel a.headers x p :=
          fun x hx => (List.pairwise_append.mp (hL' ▸ hLpair)).2.2 x hx p (List.mem_singleton.mpr rfl)
        have hL'pair : L'.Pairwise (flRel a.headers) := (List.pairwise_append.mp (hL' ▸ hLpair)).1
        have hL'mem : ∀ x ∈ L', x ∈ L := by
          intro x hx
          rw [hL']
          exact List.mem_append_left _ hx
        have hLltb : ∀ x ∈ L, x ≠ b := fun x hx => by have := hLlt x hx; omega
        have hLltn : ∀ x ∈ L, x ≠ n := fun x hx => by have := hLlt x hx; omega
        have hs1sizeL : ∀ x ∈ L, hdrSize (mergeBlocks hs0 b n) x = hdrSize a.headers x := by
          intro x hx
          rw [mergeBlocks_hdrSize_other (hLltb x hx) (hLltn x hx), h0size]
        have hs1freedL : ∀ x ∈ L, hdrFreed (mergeBlocks hs0 b n) x = true := by
          intro x hx
          rw [mergeBlocks_hdrFreed_other (hLltb x hx) (hLltn x hx)]
          exact h0freedO x (hLmem x hx)
        by_cases hcondP :
            (hdrFreed (mergeBlocks hs0 b n) p &&
              decide (p + headerSize + hdrSize (mergeBlocks hs0 b n) p = b)) = true
        · simp only [hcondP]
          rw [if_pos trivial]
          -- predecessor merge also fires: `p` absorbs the already-extended block
          have hadjP : p + headerSize + hp.size = b := by
            have h2 := (Bool.and_eq_true _ _).mp hcondP
            have h3 := of_decide_eq_true h2.2
            rw [hdrSize_of_lookup hs1lookP] at h3
            exact h3
          have ord2 := mergeBlocks_ordered ord1 hs1lookP hs1lookB hadjP
          have bnd2 := mergeBlocks_bounded ord1 hs1lookP hs1lookB hadjP bnd1
          have hs2lookP : lookupHdr (mergeBlocks (mergeBlocks hs0 b n) p b) p =
              some { hp with size := hp.size + headerSize + hdrSize (mergeBlocks hs0 b n) b } :=
            mergeBlocks_lookup_left hs1lookP hpb
          have hs2sizeP : hdrSize (mergeBlocks (mergeBlocks hs0 b n) p b) p
              = hp.size + headerSize + (hb.size + headerSize + hn.size) := by
            rw [hdrSize_of_lookup hs2lookP, hs1sizeB]
          refine ⟨ord2, bnd2, ?_, ?_⟩
          · intro x hx
            rcases List.mem_append.mp hx with hm | hm
            · by_cases hxp : x = p
              · subst hxp
                rw [hdrFreed_of_lookup hs2lookP]
                exact hpfreed
              · rw [mergeBlocks_hdrFreed_other hxp (hLltb x hm)]
                exact hs1freedL x hm
            · have hmp : x ≠ p := by have := hLlt p hpL; have := hnsgtb x hm; omega
              have hmb : x ≠ b := by have := hnsgtb x hm; omega
              rw [mergeBlocks_hdrFreed_other hmp hmb]
              exact hs1freedNs x hm
          · rw [List.pairwise_append]
            refine ⟨?_, ?_, ?_⟩
            · -- within L = L' ++ [p]
              rw [hL', List.pairwise_append]
              refine ⟨?_, by simp, ?_⟩
              · refine hL'pair.imp_of_mem ?_
                intro u v hu hv huv
                have huL : u ∈ L := hL'mem u hu
                unfold flRel at *
                rw [mergeBlocks_hdrSize_other (hL'ne u hu) (hLltb u huL), hs1sizeL u huL]
                exact huv
              · intro x hx y hy
                rcases List.mem_singleton.mp hy with rfl
                have hxL : x ∈ L := hL'mem x hx
                have := hL'rel x hx
                unfold flRel at *
                rw [mergeBlocks_hdrSize_other (hL'ne x hx) (hLltb x hxL), hs1sizeL x hxL]
                exact this
            · -- within ns
              refine hnspair1.imp_of_mem ?_
              intro u v hu hv huv
              have hup : u ≠ p := by have := hLlt p hpL; have := hnsgtb u hu; omega
              have hub : u ≠ b := by have := hnsgtb u hu; omega
              unfold flRel at *
              rw [mergeBlocks_hdrSize_other hup hub]
              exact huv
            · -- across: L to ns
              intro x hx m hm
              by_cases hxp : x = p
              · subst hxp
                have := hnsrel m hm
                unfold flRel at *
                rw [hs2sizeP]
                rw [hdrSize_of_lookup hnl] at this
                omega
              · have hxL : x ∈ L := hx
                have hxrel : flRel a.headers x p := by
                  rcases List.mem_append.mp (hL' ▸ hx) with hm' | hm'
                  · exact hL'rel x hm'
                  · rcases List.mem_singleton.mp hm' with rfl
                    exact absurd rfl hxp
                have hpm : p < m := by have := hLlt p hpL; have := hnsgtb m hm; omega
                unfold flRel at *
                rw [mergeBlocks_hdrSize_other hxp (hLltb x hxL), hs1sizeL x hxL]
                omega
        · have hcfP : (hdrFreed (mergeBlocks hs0 b n) p &&
              decide (p + headerSize + hdrSize (mergeBlocks hs0 b n) p = b)) = false := by
            simpa using hcondP
          simp only [hcfP]
          rw [if_neg Bool.false_ne_true]
          -- only the successor merge fired
          have hnmP : p + headerSize + hp.size ≠ b := by
            intro hc
            apply hcondP
            rw [Bool.and_eq_true]
            refine ⟨hs1freedP, decide_eq_true ?_⟩
            rw [hdrSize_of_lookup hs1lookP]
            exact hc
          have hltP : p + headerSize + hp.size < b := by
            have := hGeomL p hpL
            rw [hdrSize_of_lookup hpl] at this
            omega
          refine ⟨ord1, bnd1, ?_, ?_⟩
          · intro x hx
            rcases List.mem_append.mp hx with hm | hm
            · exact hs1freedL x hm
            · rcases List.mem_cons.mp hm with rfl | hm'
              · exact hs1freedB
              · exact hs1freedNs x hm'
          · rw [List.pairwise_append]
            refine ⟨?_, ?_, ?_⟩
            · refine hLpair.imp_of_mem ?_
              intro u v hu hv huv
              unfold flRel at *
              rw [hs1sizeL u hu]
              exact huv
            · rw [List.pairwise_cons]
              exact ⟨hs1relNs, hnspair1⟩
            · intro x hx y hy
              rcases List.mem_cons.mp hy with rfl | hm
              · -- x to b
                unfold flRel
                rw [hs1sizeL x hx]
                by_cases hxp : x = p
                · subst hxp
                  rw [hdrSize_of_lookup hpl]
                  exact hltP
                · rcases List.mem_append.mp (hL' ▸ hx) with hm' | hm'
                  · have h1 := hL'rel x hm'
                    have h2 := hLlt p hpL
                    unfold flRel at h1
                    omega
                  · rcases List.mem_singleton.mp hm' with rfl
                    exact absurd rfl hxp
              · -- x to a member of ns
                have h1 := hCross x hx y (hnsR y hm)
                unfold flRel at *
                rw [hs1sizeL x hx]
                omega
    · have hcfN : (hdrFreed hs0 n && decide (b + headerSize + hdrSize hs0 b = n)) = false := by
        simpa using hcondN
      simp only [hcfN]
      rw [if_neg Bool.false_ne_true]
      -- no successor merge: the failed test says the ends differ
      have hneN : b + headerSize + hb.size ≠ n := by
        intro hc
        apply hcondN
        rw [Bool.and_eq_true]
        refine ⟨h0freedO n (hRmem n hnR), decide_eq_true ?_⟩
        rw [h0sizeB]
        exact hc
      have hltN : b + headerSize + hb.size < n := by
        have := hGeomR n hnR
        omega
      have hrelbn : ∀ m ∈ R, flRel hs0 b m := by
        intro m hm
        unfold flRel
        rw [h0sizeB]
        rcases List.mem_cons.mp (hRc ▸ hm) with rfl | hm'
        · exact hltN
        · have h1 := hnsrel m hm'
          have h2 := flRel_lt h1
          omega
      cases hLast : L.getLast? with
      | none =>
        dsimp only
        have hLnil : L = [] := List.getLast?_eq_none_iff.mp hLast
        refine ⟨ord0, bnd0, ?_, ?_⟩
        · intro x hx
          rw [hLnil] at hx
          rcases List.mem_cons.mp hx with rfl | hm
          · exact h0freedB
          · exact h0freedO x (hRmem x (hRc ▸ hm))
        · rw [hLnil]
          simp only [List.nil_append]
          rw [List.pairwise_cons]
          refine ⟨?_, ?_⟩
          · intro m hm
            exact hrelbn m (hRc ▸ hm)
          · have : R.Pairwise (flRel a.headers) := hRpair
            have h2 : (n :: ns).Pairwise (flRel a.headers) := hRc ▸ this
            exact h2.imp_of_mem fun hu hv huv => h0rel _ _ huv
      | some p =>
        dsimp only
        rcases List.getLast?_eq_some_iff.mp hLast with ⟨L', hL'⟩
        have hpL : p ∈ L := by
          rw [hL']
          exact List.mem_append_right L' (List.mem_singleton.mpr rfl)
        have hpb : p ≠ b := by have := hLlt p hpL; omega
        rcases hflLook p (hLmem p hpL) with ⟨hp, hpl, hpfreed⟩
        have h0lookP : lookupHdr hs0 p = some hp := by rw [h0lookO p hpb]; exact hpl
        have hL'ne : ∀ x ∈ L', x ≠ p := by
          intro x hx
          have := (List.pairwise_append.mp (hL' ▸ hLnodup)).2.2
          exact this x hx p (List.mem_singleton.mpr rfl)
        have hL'rel : ∀ x ∈ L', flRel a.headers x p :=
          fun x hx => (List.pairwise_append.mp (hL' ▸ hLpair)).2.2 x hx p (List.mem_singleton.mpr rfl)
        have hL'pair : L'.Pairwise (flRel a.headers) := (List.pairwise_append.mp (hL' ▸ hLpair)).1
        have hL'mem : ∀ x ∈ L', x ∈ L := by
          intro x hx
          rw [hL']
          exact List.mem_append_left _ hx
        have hLltb : ∀ x ∈ L, x ≠ b := fun x hx => by have := hLlt x hx; omega
        by_cases hcondP :
            (hdrFreed hs0 p && decide (p + headerSize + hdrSize hs0 p = b)) = true
        · simp only [hcondP]
          rw [if_pos trivial]
          -- only the predecessor merge fires
          have hadjP : p + headerSize + hp.size = b := by
            have h2 := (Bool.and_eq_true _ _).mp hcondP
            have h3 := of_decide_eq_true h2.2
            rw [hdrSize_of_lookup h0lookP] at h3
            exact h3
          have ord2 := mergeBlocks_ordered ord0 h0lookP h0lookB hadjP
          have bnd2 := mergeBlocks_bounded ord0 h0lookP h0lookB hadjP bnd0
          have hs2lookP : lookupHdr (mergeBlocks hs0 p b) p =
              some { hp with size := hp.size + headerSize + hdrSize hs0 b } :=
            mergeBlocks_lookup_left h0lookP hpb
          have hs2sizeP : hdrSize (mergeBlocks hs0 p b) p
              = hp.size + headerSize + hb.size := by
            rw [hdrSize_of_lookup hs2lookP, h0sizeB]
          have hs2endP : p + headerSize + hdrSize (mergeBlocks hs0 p b) p
              = b + headerSize + hb.size := by
            rw [hs2sizeP]
            omega
          have hRne : ∀ m ∈ R, m ≠ p ∧ m ≠ b := by
            intro m hm
            have h1 := hRgt m hm
            have h2 := hLlt p hpL
            omega
          refine ⟨ord2, bnd2, ?_, ?_⟩
          · intro x hx
            rcases List.mem_append.mp hx with hm | hm
            · by_cases hxp : x = p
              · subst hxp
                rw [hdrFreed_of_lookup hs2lookP]
                exact hpfreed
              · rw [mergeBlocks_hdrFreed_other hxp (hLltb x hm)]
                exact h0freedO x (hLmem x hm)
            · have hm' : x ∈ R := hRc ▸ hm
              rw [mergeBlocks_hdrFreed_other (hRne x hm').1 (hRne x hm').2]
              exact h0freedO x (hRmem x hm')
          · rw [List.pairwise_append]
            refine ⟨?_, ?_, ?_⟩
            · rw [hL', List.pairwise_append]
              refine ⟨?_, by simp, ?_⟩
              · refine hL'pair.imp_of_mem ?_
                intro u v hu hv huv
                have huL : u ∈ L := hL'mem u hu
                unfold flRel at *
                rw [mergeBlocks_hdrSize_other (hL'ne u hu) (hLltb u huL), h0size]
                exact huv
              · intro x hx y hy
                rcases List.mem_singleton.mp hy with rfl
                have hxL : x ∈ L := hL'mem x hx
                have := hL'rel x hx
                unfold flRel at *
                rw [mergeBlocks_hdrSize_other (hL'ne x hx) (hLltb x hxL), h0size]
                exact this
            · have h2 : (n :: ns).Pairwise (flRel a.headers) := hRc ▸ hRpair
              refine h2.imp_of_mem ?_
              intro u v hu hv huv
              have huR : u ∈ R := hRc ▸ hu
              unfold flRel at *
              rw [mergeBlocks_hdrSize_other (hRne u huR).1 (hRne u huR).2, h0size]
              exact huv
            · intro x hx m hm
              have hmR : m ∈ R := hRc ▸ hm
              by_cases hxp : x = p
              · subst hxp
                have := hrelbn m hmR
                unfold flRel at *
                rw [hs2sizeP]
                rw [h0sizeB] at this
                omega
              · have hxrel : flRel a.headers x p := by
                  rcases List.mem_append.mp (hL' ▸ hx) with hm' | hm'
                  · exact hL'rel x hm'
                  · rcases List.mem_singleton.mp hm' with rfl
                    exact absurd rfl hxp
                have hpm : p < m := by have := hLlt p hpL; have := hRgt m hmR; omega
                unfold flRel at *
                rw [mergeBlocks_hdrSize_other hxp (hLltb x hx), h0size]
                omega
        · have hcfP : (hdrFreed hs0 p && decide (p + headerSize + hdrSize hs0 p = b)) = false := by
            simpa using hcondP
          simp only [hcfP]
          rw [if_neg Bool.false_ne_true]
          -- neither merge fires
          have hnmP : p + headerSize + hdrSize hs0 p ≠ b := by
            intro hc
            apply hcondP
            rw [Bool.and_eq_true]
            exact ⟨h0freedO p (hLmem p hpL), decide_eq_true hc⟩
          refine ⟨ord0, bnd0, ?_, ?_⟩
          · intro x hx
            rcases List.mem_append.mp hx with hm | hm
            · exact h0freedO x (hLmem x hm)
            · rcases List.mem_cons.mp hm with rfl | hm'
              · exact h0freedB
              · exact h0freedO x (hRmem x (hRc ▸ hm'))
          · rw [List.pairwise_append]
            refine ⟨hLpair.imp_of_mem (fun hu hv huv => h0rel _ _ huv), ?_, ?_⟩
            · rw [List.pairwise_cons]
              refine ⟨?_, ?_⟩
              · intro m hm
                exact hrelbn m (hRc ▸ hm)
              · have h2 : (n :: ns).Pairwise (flRel a.headers) := hRc ▸ hRpair
                exact h2.imp_of_mem fun hu hv huv => h0rel _ _ huv
            · intro x hx y hy
              rcases List.mem_cons.mp hy with rfl | hm
              · unfold flRel
                rw [h0size]
                by_cases hxp : x = p
                · subst hxp
                  have := hGeomL x hpL
                  rw [h0size] at hnmP
                  omega
                · rcases List.mem_append.mp (hL' ▸ hx) with hm' | hm'
                  · have h1 := hL'rel x hm'
                    have h2 := hLlt p hpL
                    unfold flRel at h1
                    omega
                  · rcases List.mem_singleton.mp hm' with rfl
                    exact absurd rfl hxp
              · have hyR : y ∈ R := by rw [hRc]; exact hm
                have h1 := hCross x hx y hyR
                exact h0rel _ _ h1

/-! ## Invariant preservation for the remaining operations -/

theorem arwf_mem (a : ThreadArena) (m : Nat → Nat) (w : ArWF a) :
    ArWF { a with mem := m } :=
  ⟨w.ordered, w.bounded, w.flMem, w.flChain⟩

theorem arfree_wf (a : ThreadArena) (p : Option Nat) (w : ArWF a) :
    ArWF (arfree a p) := by
  unfold arfree
  cases p with
  | none => exact w
  | some q =>
    dsimp only
    cases hl : lookupHdr a.headers (q - headerSize) with
    | none => exact w
    | some h =>
      cases hf : h.freed with
      | true =>
        simp only [hf]
        rw [if_pos trivial]
        exact w
      | false =>
        simp only [hf]
        rw [if_neg Bool.false_ne_true]
        exact insert_coalesce_wf a (q - headerSize) h w hl hf

theorem arreset_wf (a : ThreadArena) : ArWF (arreset a) := by
  refine ⟨List.Pairwise.nil, by simp [arreset], by simp [arreset], List.Pairwise.nil⟩

theorem arcalloc_wf (ok : Nat → Bool) (a : ThreadArena) (num size : Nat)
    (w : ArWF a) : ArWF (arcalloc ok a num size).2 := by
  unfold arcalloc
  split
  · exact w
  · have w1 := armalloc_wf ok a (num * size) w
    cases hm : armalloc ok a (num * size) with
    | mk po a1 =>
      rw [hm] at w1
      simp only [hm]
      cases po with
      | some p =>
        dsimp only
        exact arwf_mem a1 _ w1
      | none =>
        dsimp only
        exact w1

theorem hdrSize_update_le {hs : Headers} {b : Nat}
    {f : BlockHeader → BlockHeader} (hf : ∀ h, (f h).size ≤ h.size) (x : Nat) :
    hdrSize (updateHdr hs b f) x ≤ hdrSize hs x := by
  unfold hdrSize
  rw [lookupHdr_update]
  by_cases hx : x = b
  · subst hx
    cases lookupHdr hs x with
    | none => simp
    | some h => simpa using hf h
  · rw [if_neg hx]

/-- Shrink-in-place: rewriting one header to a smaller (or equal) size
preserves the layout invariant. -/
theorem wf_update_shrink (a : ThreadArena) (b : Nat) (hb : BlockHeader)
    (ns : Nat) (w : ArWF a) (hlk : lookupHdr a.headers b = some hb)
    (hle : ns ≤ hb.size) :
    ArWF { a with headers := updateHdr a.headers b fun h0 => { h0 with size := ns } } := by
  have hsz : ∀ w0 : Nat × BlockHeader, w0 ∈ a.headers → w0.1 = b → ns ≤ w0.2.size := by
    intro w0 hw0 hwb
    have hmem : (b, w0.2) ∈ a.headers := by
      have hw : w0 = (b, w0.2) := by
        cases w0
        simpa using hwb
      rw [← hw]
      exact hw0
    have hlw := lookup_of_mem_ordered w.ordered hmem
    rw [hlk] at hlw
    have hb2 : hb = w0.2 := Option.some_injective _ hlw
    rw [← hb2]
    exact hle
  refine ⟨?_, ?_, ?_, ?_⟩
  · rw [updateHdr_eq_map]
    rw [List.pairwise_map]
    refine w.ordered.imp_of_mem ?_
    intro u v hu hv hr
    unfold hdrRel hdrEnd at *
    by_cases hux : u.1 = b
    · have := hsz u hu hux
      by_cases hvx : v.1 = b <;> simp [hux, hvx] <;> omega
    · by_cases hvx : v.1 = b <;> simp [hux, hvx] <;> omega
  · intro e he
    rcases mem_updateHdr he with ⟨he2, _⟩ | ⟨h0, hm, rfl⟩
    · exact w.bounded e he2
    · have h0b : h0 = hb := by
        have hlw := lookup_of_mem_ordered w.ordered hm
        rw [hlk] at hlw
        exact (Option.some_injective _ hlw).symm
      have hbd := w.bounded (b, h0) hm
      unfold hdrEnd at hbd ⊢
      simp only at hbd ⊢
      have hsz2 : h0.size = hb.size := by rw [h0b]
      omega
  · intro p hp
    have hfp : hdrFreed (updateHdr a.headers b fun h0 => { h0 with size := ns }) p
        = hdrFreed a.headers p := hdrFreed_update_of_freed_eq (by intro h; rfl) p
    rw [hfp]
    exact w.flMem p hp
  · refine w.flChain.imp_of_mem ?_
    intro p q hp hq hr
    unfold flRel at *
    dsimp only
    have hple : hdrSize (updateHdr a.headers b fun h0 => { h0 with size := ns }) p
        ≤ hdrSize a.headers p := by
      unfold hdrSize
      rw [lookupHdr_update]
      by_cases hx : p = b
      · subst hx
        rw [if_pos rfl, hlk]
        simpa using hle
      · rw [if_neg hx]
    omega

theorem arrealloc_wf (ok : Nat → Bool) (a : ThreadArena) (ptr : Option Nat)
    (ns : Nat) (w : ArWF a) : ArWF (arrealloc ok a ptr ns).2 := by
  unfold arrealloc
  cases ptr with
  | none => exact armalloc_wf ok a ns w
  | some p =>
    dsimp only
    cases hl : lookupHdr a.headers (p - headerSize) with
    | none => exact w
    | some h =>
      dsimp only
      by_cases hle : ALIGN ns ≤ h.size
      · rw [if_pos hle]
        exact wf_update_shrink a (p - headerSize) h (ALIGN ns) w hl hle
      · rw [if_neg hle]
        have w1 := armalloc_wf ok a ns w
        cases hm : armalloc ok a ns with
        | mk po a1 =>
          rw [hm] at w1
          cases po with
          | none => exact w1
          | some np =>
            dsimp only
            exact arfree_wf _ (some p) (arwf_mem a1 _ w1)

theorem wf_init : ArWF arenaInit := by
  refine ⟨List.Pairwise.nil, ?_, ?_, List.Pairwise.nil⟩
  · intro e he
    simp [arenaInit] at he
  · intro p hp
    simp [arenaInit] at hp

theorem runOp_wf (ok : Nat → Bool) (a : ThreadArena) (op : ArOp) (w : ArWF a) :
    ArWF (runOp ok a op) := by
  cases op with
  | malloc s => exact armalloc_wf ok a s w
  | calloc n s => exact arcalloc_wf ok a n s w
  | realloc p s => exact arrealloc_wf ok a p s w
  | free p => exact arfree_wf a p w
  | reset => exact arreset_wf a

theorem run_wf (ok : Nat → Bool) (ops : List ArOp) :
    ArWF (run ok arenaInit ops) := by
  suffices h : ∀ a, ArWF a → ArWF (run ok a ops) from h arenaInit wf_init
  induction ops with
  | nil => intro a w; exact w
  | cons op t ih =>
    intro a w
    exact ih _ (runOp_wf ok a op w)

/-! ## The `0 ≤ offset ≤ capacity` invariant -/

/-- Nonnegativity `0 ≤ offset` is automatic on `Nat`; the substantive half of the C
invariant is `offset ≤ capacity`. -/
def OffCap (a : ThreadArena) : Prop := a.offset ≤ a.capacity

theorem insert_coalesce_const (a : ThreadArena) (b : Nat) :
    (freelist_insert_and_coalesce a b).offset = a.offset ∧
    (freelist_insert_and_coalesce a b).capacity = a.capacity ∧
    (freelist_insert_and_coalesce a b).mem = a.mem := by
  unfold freelist_insert_and_coalesce
  dsimp only
  cases (a.freelist.takeWhile fun q => decide (q < b)).getLast? with
  | none => exact ⟨rfl, rfl, rfl⟩
  | some p =>
    dsimp only
    split
    · exact ⟨rfl, rfl, rfl⟩
    · exact ⟨rfl, rfl, rfl⟩

theorem arfree_const (a : ThreadArena) (p : Option Nat) :
    (arfree a p).offset = a.offset ∧ (arfree a p).capacity = a.capacity ∧
    (arfree a p).mem = a.mem := by
  unfold arfree
  cases p with
  | none => exact ⟨rfl, rfl, rfl⟩
  | some q =>
    dsimp only
    cases lookupHdr a.headers (q - headerSize) with
    | none => exact ⟨rfl, rfl, rfl⟩
    | some h =>
      dsimp only
      split
      · exact ⟨rfl, rfl, rfl⟩
      · exact insert_coalesce_const a (q - headerSize)

theorem armalloc_offcap (ok : Nat → Bool) (a : ThreadArena) (s : Nat)
    (h : OffCap a) : OffCap (armalloc ok a s).2 := by
  unfold armalloc
  cases hscan : scanFit a.headers (ALIGN s) a.freelist with
  | some qfl =>
    cases qfl with
    | mk q fl =>
      simp only [hscan]
      exact h
  | none =>
    simp only [hscan]
    cases hgrow : (if a.offset + (ALIGN s + headerSize) > a.capacity
        then arena_expand ok a (a.offset + (ALIGN s + headerSize)) else some a) with
    | none => exact h
    | some a1 =>
      dsimp only
      unfold OffCap
      dsimp only
      by_cases hc : a.offset + (ALIGN s + headerSize) > a.capacity
      · rw [if_pos hc] at hgrow
        unfold arena_expand at hgrow
        dsimp only at hgrow
        split at hgrow
        · cases hgrow
          dsimp only
          exact expandLoop_ge _ _ (by omega)
        · cases hgrow
      · rw [if_neg hc] at hgrow
        cases hgrow
        omega

theorem armalloc_caps (ok : Nat → Bool) (a : ThreadArena) (s : Nat) :
    a.capacity ≤ (armalloc ok a s).2.capacity := by
  unfold armalloc
  cases hscan : scanFit a.headers (ALIGN s) a.freelist with
  | some qfl =>
    cases qfl with
    | mk q fl =>
      simp only [hscan]
      exact Nat.le_refl _
  | none =>
    simp only [hscan]
    cases hgrow : (if a.offset + (ALIGN s + headerSize) > a.capacity
        then arena_expand ok a (a.offset + (ALIGN s + headerSize)) else some a) with
    | none => exact Nat.le_refl _
    | some a1 =>
      dsimp only
      by_cases hc : a.offset + (ALIGN s + headerSize) > a.capacity
      · rw [if_pos hc] at hgrow
        unfold arena_expand at hgrow
        dsimp only at hgrow
        split at hgrow
        · cases hgrow
          dsimp only
          rw [expandLoop_closed, if_pos (by omega)]
          have := expandStep_ge (a.offset + (ALIGN s + headerSize)) a.capacity
          omega
        · cases hgrow
      · rw [if_neg hc] at hgrow
        cases hgrow
        exact Nat.le_refl _

theorem arcalloc_offcap (ok : Nat → Bool) (a : ThreadArena) (num size : Nat)
    (h : OffCap a) : OffCap (arcalloc ok a num size).2 := by
  unfold arcalloc
  split
  · exact h
  · have h1 := armalloc_offcap ok a (num * size) h
    cases hm : armalloc ok a (num * size) with
    | mk po a1 =>
      rw [hm] at h1
      simp only [hm]
      cases po with
      | none => exact h1
      | some p => exact h1

theorem arrealloc_offcap (ok : Nat → Bool) (a : ThreadArena) (ptr : Option Nat)
    (ns : Nat) (h : OffCap a) : OffCap (arrealloc ok a ptr ns).2 := by
  unfold arrealloc
  cases ptr with
  | none => exact armalloc_offcap ok a ns h
  | some p =>
    dsimp only
    cases hl : lookupHdr a.headers (p - headerSize) with
    | none => exact h
    | some hh =>
      dsimp only
      by_cases hle : ALIGN ns ≤ hh.size
      · rw [if_pos hle]
        exact h
      · rw [if_neg hle]
        have h1 := armalloc_offcap ok a ns h
        cases hm : armalloc ok a ns with
        | mk po a1 =>
          rw [hm] at h1
          cases po with
          | none => exact h1
          | some np =>
            dsimp only
            have hfc := arfree_const { a1 with mem := memCopy a1.mem np p hh.size } (some p)
            unfold OffCap
            rw [hfc.1, hfc.2.1]
            exact h1

theorem runOp_offcap (ok : Nat → Bool) (a : ThreadArena) (op : ArOp)
    (h : OffCap a) : OffCap (runOp ok a op) := by
  cases op with
  | malloc s => exact armalloc_offcap ok a s h
  | calloc n s => exact arcalloc_offcap ok a n s h
  | realloc p s => exact arrealloc_offcap ok a p s h
  | free p =>
    have hfc := arfree_const a p
    unfold OffCap runOp
    rw [hfc.1, hfc.2.1]
    exact h
  | reset => exact Nat.zero_le _

theorem run_offcap (ok : Nat → Bool) (ops : List ArOp) :
    OffCap (run ok arenaInit ops) := by
  suffices h : ∀ a, OffCap a → OffCap (run ok a ops) from
    h arenaInit (Nat.zero_le _)
  induction ops with
  | nil => intro a w; exact w
  | cons op t ih =>
    intro a w
    exact ih _ (runOp_offcap ok a op w)

/-! ## Divisibility of recorded sizes -/

/-- Every recorded block size is a multiple of
`gcd maxAlignSize headerSize = gcd 32 24 = 8`: `ALIGN` produces multiples of
32, and coalescing adds `headerSize = 24` plus another recorded size. -/
def sizesOk (hs : Headers) : Prop := ∀ e ∈ hs, e.2.size % 8 = 0

theorem ALIGN_mod8 (x : Nat) : ALIGN x % 8 = 0 := by
  have h := ALIGN_mod x
  have h32 : maxAlignSize = 32 := rfl
  rw [h32] at h
  omega

theorem sizesOk_update_size_eq {hs : Headers} {b : Nat}
    {f : BlockHeader → BlockHeader} (hf : ∀ h, (f h).size = h.size)
    (hso : sizesOk hs) : sizesOk (updateHdr hs b f) := by
  intro e he
  rcases mem_updateHdr he with ⟨hm, _⟩ | ⟨h0, hm, rfl⟩
  · exact hso e hm
  · have := hso (b, h0) hm
    simp only at this ⊢
    rw [hf h0]
    exact this

theorem sizesOk_hdrSize {hs : Headers} (hso : sizesOk hs) (y : Nat) :
    hdrSize hs y % 8 = 0 := by
  unfold hdrSize
  cases hl : lookupHdr hs y with
  | none => simp
  | some h => exact hso (y, h) (lookupHdr_mem hl)

theorem sizesOk_merge {hs : Headers} {x y : Nat} (hso : sizesOk hs) :
    sizesOk (mergeBlocks hs x y) := by
  intro e he
  unfold mergeBlocks at he
  rcases mem_eraseHdr he with ⟨he2, _⟩
  rcases mem_updateHdr he2 with ⟨hm, _⟩ | ⟨h0, hm, rfl⟩
  · exact hso e hm
  · have h1 := hso (x, h0) hm
    have h2 := sizesOk_hdrSize hso y
    have h3 : headerSize % 8 = 0 := by decide
    simp only at h1 ⊢
    omega

theorem insert_coalesce_sizes (a : ThreadArena) (b : Nat)
    (hso : sizesOk a.headers) :
    sizesOk (freelist_insert_and_coalesce a b).headers := by
  unfold freelist_insert_and_coalesce
  dsimp only
  have h0 : sizesOk (updateHdr a.headers b fun h => { h with freed := true }) :=
    sizesOk_update_size_eq (by intro h; rfl) hso
  cases hR : a.freelist.dropWhile (fun q => decide (q < b)) with
  | nil =>
    cases (a.freelist.takeWhile fun q => decide (q < b)).getLast? with
    | none => exact h0
    | some p =>
      dsimp only
      split
      · exact sizesOk_merge h0
      · exact h0
  | cons n ns =>
    dsimp only
    cases (a.freelist.takeWhile fun q => decide (q < b)).getLast? with
    | none =>
      dsimp only
      split
      · exact sizesOk_merge h0
      · exact h0
    | some p =>
      dsimp only
      split
      · split
        · exact sizesOk_merge (sizesOk_merge h0)
        · exact sizesOk_merge h0
      · split
        · exact sizesOk_merge h0
        · exact h0

theorem armalloc_sizes (ok : Nat → Bool) (a : ThreadArena) (s : Nat)
    (hso : sizesOk a.headers) : sizesOk (armalloc ok a s).2.headers := by
  unfold armalloc
  cases hscan : scanFit a.headers (ALIGN s) a.freelist with
  | some qfl =>
    cases qfl with
    | mk q fl =>
      simp only [hscan]
      exact sizesOk_update_size_eq (by intro h; rfl) hso
  | none =>
    simp only [hscan]
    cases hgrow : (if a.offset + (ALIGN s + headerSize) > a.capacity
        then arena_expand ok a (a.offset + (ALIGN s + headerSize)) else some a) with
    | none => exact hso
    | some a1 =>
      have ha1 : a1.headers = a.headers := by
        by_cases hc : a.offset + (ALIGN s + headerSize) > a.capacity
        · rw [if_pos hc] at hgrow
          unfold arena_expand at hgrow
          dsimp only at hgrow
          split at hgrow
          · cases hgrow; rfl
          · cases hgrow
        · rw [if_neg hc] at hgrow
          cases hgrow
          rfl
      intro e he
      dsimp only at he
      rw [ha1] at he
      rcases List.mem_append.mp he with hm | hm
      · exact hso e hm
      · simp only [List.mem_singleton] at hm
        subst hm
        exact ALIGN_mod8 s

theorem arfree_sizes (a : ThreadArena) (p : Option Nat)
    (hso : sizesOk a.headers) : sizesOk (arfree a p).headers := by
  unfold arfree
  cases p with
  | none => exact hso
  | some q =>
    dsimp only
    cases lookupHdr a.headers (q - headerSize) with
    | none => exact hso
    | some h =>
      dsimp only
      split
      · exact hso
      · exact insert_coalesce_sizes a (q - headerSize) hso

theorem arcalloc_sizes (ok : Nat → Bool) (a : ThreadArena) (num size : Nat)
    (hso : sizesOk a.headers) : sizesOk (arcalloc ok a num size).2.headers := by
  unfold arcalloc
  split
  · exact hso
  · have h1 := armalloc_sizes ok a (num * size) hso
    cases hm : armalloc ok a (num * size) with
    | mk po a1 =>
      rw [hm] at h1
      simp only [hm]
      cases po with
      | none => exact h1
      | some p => exact h1

theorem arrealloc_sizes (ok : Nat → Bool) (a : ThreadArena) (ptr : Option Nat)
    (ns : Nat) (hso : sizesOk a.headers) :
    sizesOk (arrealloc ok a ptr ns).2.headers := by
  unfold arrealloc
  cases ptr with
  | none => exact armalloc_sizes ok a ns hso
  | some p =>
    dsimp only
    cases hl : lookupHdr a.headers (p - headerSize) with
    | none => exact hso
    | some h =>
      dsimp only
      by_cases hle : ALIGN ns ≤ h.size
      · rw [if_pos hle]
        intro e he
        dsimp only at he
        rcases mem_updateHdr he with ⟨hm, _⟩ | ⟨h0, hm, rfl⟩
        · exact hso e hm
        · exact ALIGN_mod8 ns
      · rw [if_neg hle]
        have h1 := armalloc_sizes ok a ns hso
        cases hm : armalloc ok a ns with
        | mk po a1 =>
          rw [hm] at h1
          cases po with
          | none => exact h1
          | some np =>
            dsimp only
            exact arfree_sizes _ (some p) h1

theorem run_sizes (ok : Nat → Bool) (ops : List ArOp) :
    sizesOk (run ok arenaInit ops).headers := by
  suffices h : ∀ a, sizesOk a.headers → sizesOk (run ok a ops).headers from
    h arenaInit (by intro e he; simp [arenaInit] at he)
  induction ops with
  | nil => intro a w; exact w
  | cons op t ih =>
    intro a w
    refine ih _ ?_
    cases op with
    | malloc s => exact armalloc_sizes ok a s w
    | calloc n s => exact arcalloc_sizes ok a n s w
    | realloc p s => exact arrealloc_sizes ok a p s w
    | free p => exact arfree_sizes a p w
    | reset =>
      intro e he
      simp [runOp, arreset] at he

/-! ## Behaviour lemmas for the individual operations -/

/-- A failed `armalloc` (growth failure) leaves the arena untouched. -/
theorem armalloc_fail (ok : Nat → Bool) (a : ThreadArena) (s : Nat)
    (h : (armalloc ok a s).1 = none) : (armalloc ok a s).2 = a := by
  unfold armalloc at h ⊢
  cases hscan : scanFit a.headers (ALIGN s) a.freelist with
  | some qfl =>
    cases qfl with
    | mk q fl =>
      simp only [hscan] at h
      exact Option.noConfusion h
  | none =>
    simp only [hscan] at h ⊢
    cases hgrow : (if a.offset + (ALIGN s + headerSize) > a.capacity
        then arena_expand ok a (a.offset + (ALIGN s + headerSize)) else some a) with
    | none => rfl
    | some a1 =>
      rw [hgrow] at h
      simp at h

theorem mergeBlocks_lookup_left_map (hs : Headers) (x y : Nat) (hxy : x ≠ y) :
    lookupHdr (mergeBlocks hs x y) x =
      (lookupHdr hs x).map fun h =>
        { h with size := h.size + headerSize + hdrSize hs y } := by
  unfold mergeBlocks
  rw [lookupHdr_erase, if_neg hxy, lookupHdr_update, if_pos rfl]

/-- After `freelist_insert_and_coalesce`, the header at `b` either says
`freed` or has been absorbed into the predecessor (and no longer exists as a
block); the C code leaves the absorbed header's `freed = 1` bytes in place,
so a later `arfree` on the same pointer is a no-op in either case. -/
theorem insert_coalesce_lookup_self (a : ThreadArena) (b : Nat) :
    lookupHdr (freelist_insert_and_coalesce a b).headers b = none ∨
    ∃ h', lookupHdr (freelist_insert_and_coalesce a b).headers b = some h' ∧
      h'.freed = true := by
  unfold freelist_insert_and_coalesce
  dsimp only
  set hs0 := updateHdr a.headers b (fun h => { h with freed := true }) with hhs0
  set L := a.freelist.takeWhile (fun q => decide (q < b)) with hLdef
  set R := a.freelist.dropWhile (fun q => decide (q < b)) with hRdef
  have hbase : lookupHdr hs0 b = none ∨
      ∃ h', lookupHdr hs0 b = some h' ∧ h'.freed = true := by
    rw [hhs0, lookupHdr_update, if_pos rfl]
    cases lookupHdr a.headers b with
    | none => exact Or.inl rfl
    | some h => exact Or.inr ⟨_, rfl, rfl⟩
  have hmergeN : ∀ (hs : Headers) (y : Nat),
      (lookupHdr hs b = none ∨ ∃ h', lookupHdr hs b = some h' ∧ h'.freed = true) →
      lookupHdr (mergeBlocks hs b y) b = none ∨
      ∃ h', lookupHdr (mergeBlocks hs b y) b = some h' ∧ h'.freed = true := by
    intro hs y hp
    by_cases hby : b = y
    · left
      rw [hby]
      exact mergeBlocks_lookup_right
    · rw [mergeBlocks_lookup_left_map hs b y hby]
      rcases hp with hnone | ⟨h', hsome, hfr⟩
      · left
        rw [hnone]
        rfl
      · right
        rw [hsome]
        exact ⟨_, rfl, hfr⟩
  cases hRc : R with
  | nil =>
    cases L.getLast? with
    | none => exact hbase
    | some p =>
      dsimp only
      split
      · left
        exact mergeBlocks_lookup_right
      · exact hbase
  | cons n ns =>
    dsimp only
    by_cases hcondN : (hdrFreed hs0 n && decide (b + headerSize + hdrSize hs0 b = n)) = true
    · simp only [hcondN]
      rw [if_pos trivial]
      cases L.getLast? with
      | none => exact hmergeN hs0 n hbase
      | some p =>
        dsimp only
        split
        · left
          exact mergeBlocks_lookup_right
        · exact hmergeN hs0 n hbase
    · have hcf : (hdrFreed hs0 n && decide (b + headerSize + hdrSize hs0 b = n)) = false := by
        simpa using hcondN
      simp only [hcf]
      rw [if_neg Bool.false_ne_true]
      cases L.getLast? with
      | none => exact hbase
      | some p =>
        dsimp only
        split
        · left
          exact mergeBlocks_lookup_right
        · exact hbase

/-- Idempotence of `arfree`, unconditionally: the second call on the same
pointer finds the `freed` flag set (or the block absorbed) and does nothing. -/
theorem arfree_idem (a : ThreadArena) (p : Option Nat) :
    arfree (arfree a p) p = arfree a p := by
  cases p with
  | none => rfl
  | some q =>
    have step : ∀ a' : ThreadArena,
        (lookupHdr a'.headers (q - headerSize) = none ∨
         ∃ h', lookupHdr a'.headers (q - headerSize) = some h' ∧ h'.freed = true) →
        arfree a' (some q) = a' := by
      intro a' hca
      unfold arfree
      dsimp only
      rcases hca with hnone | ⟨h', hsome, hfr⟩
      · rw [hnone]
      · rw [hsome]
        dsimp only
        rw [if_pos hfr]
    cases hl : lookupHdr a.headers (q - headerSize) with
    | none =>
      have h1 : arfree a (some q) = a := by
        unfold arfree
        dsimp only
        rw [hl]
      rw [h1]
      exact h1
    | some h =>
      cases hf : h.freed with
      | true =>
        have h1 : arfree a (some q) = a := by
          unfold arfree
          dsimp only
          rw [hl]
          dsimp only
          rw [if_pos hf]
        rw [h1]
        exact h1
      | false =>
        have h1 : arfree a (some q) =
            freelist_insert_and_coalesce a (q - headerSize) := by
          unfold arfree
          dsimp only
          rw [hl]
          dsimp only
          rw [if_neg (by simp [hf])]
        rw [h1]
        exact step _ (insert_coalesce_lookup_self a (q - headerSize))

/-- The free-list scan is first-fit: if some link passes the test, `armalloc`
unlinks exactly the first passing link and returns its payload, leaving its
recorded size untouched and clearing only its `freed` flag. -/
theorem armalloc_firstfit (ok : Nat → Bool) (a : ThreadArena) (s : Nat) (q : Nat)
    (hfind : a.freelist.find? (fitPred a.headers (ALIGN s)) = some q) :
    armalloc ok a s = (some (q + headerSize),
      { a with freelist := a.freelist.eraseP (fitPred a.headers (ALIGN s)),
               headers := updateHdr a.headers q fun h => { h with freed := false } }) := by
  unfold armalloc
  dsimp only
  rw [scanFit_eq, hfind]

/-- A successful `armalloc` returns a pointer whose preceding header records
at least `ALIGN s` bytes (exactly `ALIGN s` on the bump path; the reused
block's recorded size on the free-list path). -/
theorem armalloc_hdr (ok : Nat → Bool) (a : ThreadArena) (s : Nat) (p : Nat)
    (a' : ThreadArena) (w : ArWF a) (hm : armalloc ok a s = (some p, a')) :
    ∃ h, lookupHdr a'.headers (p - headerSize) = some h ∧ ALIGN s ≤ h.size := by
  unfold armalloc at hm
  cases hscan : scanFit a.headers (ALIGN s) a.freelist with
  | some qfl =>
    cases qfl with
    | mk q fl =>
      simp only [hscan] at hm
      rcases scanFit_some hscan with ⟨l₁, l₂, hfl, hfl2, hfit, hall⟩
      unfold fitPred at hfit
      cases hql : lookupHdr a.headers q with
      | none => rw [hql] at hfit; simp at hfit
      | some hq =>
        rw [hql] at hfit
        have hfit2 := (Bool.and_eq_true _ _).mp hfit
        have hsize := of_decide_eq_true hfit2.2
        cases hm
        refine ⟨{ hq with freed := false }, ?_, hsize⟩
        have hq24 : q + headerSize - headerSize = q := by omega
        rw [hq24, lookupHdr_update, if_pos rfl, hql]
        rfl
  | none =>
    simp only [hscan] at hm
    cases hgrow : (if a.offset + (ALIGN s + headerSize) > a.capacity
        then arena_expand ok a (a.offset + (ALIGN s + headerSize)) else some a) with
    | none =>
      rw [hgrow] at hm
      simp at hm
    | some a1 =>
      rw [hgrow] at hm
      simp only at hm
      have ha1 : a1.headers = a.headers ∧ a1.offset = a.offset := by
        by_cases hc : a.offset + (ALIGN s + headerSize) > a.capacity
        · rw [if_pos hc] at hgrow
          unfold arena_expand at hgrow
          dsimp only at hgrow
          split at hgrow
          · cases hgrow; exact ⟨rfl, rfl⟩
          · cases hgrow
        · rw [if_neg hc] at hgrow
          cases hgrow
          exact ⟨rfl, rfl⟩
      cases hm
      refine ⟨{ size := ALIGN s, freed := false }, ?_, Nat.le_refl _⟩
      have hoff : a1.offset + headerSize - headerSize = a1.offset := by omega
      rw [hoff, lookupHdr_append]
      have hnone : lookupHdr a1.headers a1.offset = none := by
        rw [ha1.1, ha1.2]
        refine lookupHdr_eq_none ?_
        intro e he
        have hb := w.bounded e he
        have : 0 < headerSize := by decide
        unfold hdrEnd at hb
        omega
      rw [hnone]
      unfold lookupHdr
      rw [if_pos rfl]

/-- Behaviour of `arcalloc` with the overflow guard tripped: a null result before any
allocation, arena untouched. -/
theorem arcalloc_overflow (ok : Nat → Bool) (a : ThreadArena) (num size : Nat)
    (hsz : size ≠ 0) (hov : num > SIZE_MAX / size) :
    arcalloc ok a num size = (none, a) := by
  unfold arcalloc
  rw [if_pos ⟨hsz, hov⟩]

/-- Behaviour of `arcalloc` without overflow: delegate to `armalloc (num * size)` and
zero-fill the returned payload. -/
theorem arcalloc_delegates (ok : Nat → Bool) (a : ThreadArena) (num size : Nat)
    (hno : ¬ (size ≠ 0 ∧ num > SIZE_MAX / size)) :
    arcalloc ok a num size =
      match armalloc ok a (num * size) with
      | (some p, a1) => (some p, { a1 with mem := memZero a1.mem p (num * size) })
      | (none, a1) => (none, a1) := by
  unfold arcalloc
  rw [if_neg hno]

/-- The guard is exactly the no-overflow condition: when it passes, the
`size_t` product `num * size` does not wrap. -/
theorem arcalloc_no_overflow (num size : Nat)
    (hno : ¬ (size ≠ 0 ∧ num > SIZE_MAX / size)) :
    num * size ≤ SIZE_MAX := by
  by_cases hsz : size = 0
  · subst hsz
    simp
  · have hle : num ≤ SIZE_MAX / size := by
      rcases Decidable.not_and_iff_or_not.mp hno with h1 | h2
      · exact absurd hsz (by simpa using h1)
      · omega
    have hpos : 0 < size := Nat.pos_of_ne_zero hsz
    calc num * size ≤ SIZE_MAX / size * size := Nat.mul_le_mul_right size hle
    _ ≤ SIZE_MAX := Nat.div_mul_le_self SIZE_MAX size

/-- Shrink-in-place path of `arrealloc`: same pointer back, header rewritten
to `ALIGN new_size`, free list and payload bytes untouched. -/
theorem arrealloc_shrink (ok : Nat → Bool) (a : ThreadArena) (p ns : Nat)
    (h : BlockHeader) (hl : lookupHdr a.headers (p - headerSize) = some h)
    (hle : ALIGN ns ≤ h.size) :
    arrealloc ok a (some p) ns = (some p,
      { a with
        headers := updateHdr a.headers (p - headerSize) fun h0 => { h0 with size := ALIGN ns } }) := by
  unfold arrealloc
  dsimp only
  rw [hl]
  dsimp only
  rw [if_pos hle]

/-- Growth path of `arrealloc` when the fresh allocation fails: null result,
arena (hence the original block, its header and payload) untouched. -/
theorem arrealloc_grow_fail (ok : Nat → Bool) (a : ThreadArena) (p ns : Nat)
    (h : BlockHeader) (hl : lookupHdr a.headers (p - headerSize) = some h)
    (hgt : ¬ ALIGN ns ≤ h.size) (hfail : (armalloc ok a ns).1 = none) :
    arrealloc ok a (some p) ns = (none, a) := by
  unfold arrealloc
  dsimp only
  rw [hl]
  dsimp only
  rw [if_neg hgt]
  have h2 := armalloc_fail ok a ns hfail
  cases hm : armalloc ok a ns with
  | mk po a1 =>
    rw [hm] at hfail h2
    simp only at hfail h2
    cases po with
    | some np => simp at hfail
    | none =>
      dsimp only
      rw [h2]

theorem ALIGN_zero : ALIGN 0 = 0 := by decide

/-- An oracle accepting exactly the backing sizes up to `c` bytes. -/
def okLe (c : Nat) : Nat → Bool := fun n => decide (n ≤ c)

/-- The closed form of the growth loop from a positive, insufficient
capacity: double once, and clamp up to exactly `required` if one doubling
still undershoots.  (The loop body never runs twice, because the clamp sits
inside the loop.) -/
theorem expandLoop_max (r c : Nat) (hc0 : 0 < c) (hcr : c < r) :
    expandLoop r c = if c * GROWTH_FACTOR < r then r else c * GROWTH_FACTOR := by
  rw [expandLoop_closed, if_pos hcr]
  unfold expandStep
  dsimp only
  rw [if_neg (by omega : ¬ c = 0)]

/-- Behaviour of `armalloc` on an empty free list, when the bump region must grow and the
backing `realloc` succeeds. -/
theorem armalloc_bump_grow (ok : Nat → Bool) (a : ThreadArena) (s : Nat)
    (hfl : a.freelist = [])
    (hcap : a.offset + (ALIGN s + headerSize) > a.capacity)
    (hok : ok (expandLoop (a.offset + (ALIGN s + headerSize)) a.capacity) = true) :
    armalloc ok a s = (some (a.offset + headerSize),
      { a with
        capacity := expandLoop (a.offset + (ALIGN s + headerSize)) a.capacity,
        headers := a.headers ++ [(a.offset, { size := ALIGN s, freed := false })],
        offset := a.offset + (ALIGN s + headerSize) }) := by
  unfold armalloc
  dsimp only
  rw [hfl]
  simp only [scanFit]
  rw [if_pos hcap]
  unfold arena_expand
  dsimp only
  rw [hok, if_pos rfl]
  dsimp only
  rw [hfl]

/-- Behaviour of `armalloc(0)` with a non-empty free list: `ALIGN 0 = 0`, so the very
first node passes the first-fit test and is returned whole. -/
theorem armalloc_zero_head (ok : Nat → Bool) (a : ThreadArena) (q : Nat)
    (rest : List Nat) (w : ArWF a) (hfl : a.freelist = q :: rest) :
    armalloc ok a 0 = (some (q + headerSize),
      { a with freelist := rest,
               headers := updateHdr a.headers q fun h => { h with freed := false } }) := by
  rcases hdrFreed_some (w.flMem q (by rw [hfl]; exact List.mem_cons_self q rest)) with
    ⟨hq, hql, hqf⟩
  have hfit : fitPred a.headers (ALIGN 0) q = true := by
    unfold fitPred
    rw [hql]
    dsimp only
    rw [hqf]
    simp [ALIGN_zero]
  unfold armalloc
  dsimp only
  rw [hfl]
  unfold scanFit
  rw [if_pos hfit]

/-- Behaviour of `armalloc(0)` with an empty free list and room in the bump region:
carve a zero-payload block, advancing `offset` by exactly `headerSize`. -/
theorem armalloc_zero_bump (ok : Nat → Bool) (a : ThreadArena)
    (hfl : a.freelist = []) (hcap : a.offset + headerSize ≤ a.capacity) :
    armalloc ok a 0 = (some (a.offset + headerSize),
      { a with headers := a.headers ++ [(a.offset, { size := 0, freed := false })],
               offset := a.offset + headerSize }) := by
  unfold armalloc
  dsimp only
  rw [hfl]
  simp only [scanFit]
  rw [ALIGN_zero]
  simp only [Nat.zero_add]
  rw [if_neg (by omega : ¬ a.offset + headerSize > a.capacity)]
  dsimp only
  rw [hfl]

/-- Behaviour of `armalloc(0)` with an empty free list, a full bump region, and a failing
backing `realloc`: a null result (refuting "`Allocate(0)` never fails"). -/
theorem armalloc_zero_fail (ok : Nat → Bool) (a : ThreadArena)
    (hfl : a.freelist = []) (hcap : a.offset + headerSize > a.capacity)
    (hok : ok (expandLoop (a.offset + headerSize) a.capacity) = false) :
    armalloc ok a 0 = (none, a) := by
  unfold armalloc
  dsimp only
  rw [hfl]
  simp only [scanFit]
  rw [ALIGN_zero]
  simp only [Nat.zero_add]
  rw [if_pos hcap]
  unfold arena_expand
  dsimp only
  rw [hok]
  rw [if_neg Bool.false_ne_true]

/-- Running the single call sequence `[Allocate s]` is `armalloc`'s arena
component, definitionally. -/
theorem run_malloc_one (ok : Nat → Bool) (a : ThreadArena) (s : Nat) :
    run ok a [ArOp.malloc s] = (armalloc ok a s).2 := rfl

/-! ## The claims -/

/-- C1: after any sequence of Allocate, AllocateZeroed, Reallocate, Free and
Reset calls on one thread's Arena, the free list is strictly increasing by
block address and contains no two entries whose memory ranges touch (each
listed block ends strictly before the next listed header begins, pairwise);
and a run of three physically contiguous freed blocks is collapsed to a
single free-list entry spanning all three (freeing the middle block merges
with the successor before the predecessor). -/
theorem C1_freelist_sorted_coalesced :
    (∀ (ok : Nat → Bool) (ops : List ArOp),
      (run ok arenaInit ops).freelist.Pairwise (· < ·) ∧
      (run ok arenaInit ops).freelist.Pairwise
        (flRel (run ok arenaInit ops).headers)) ∧
    (run okTrue arenaInit [ArOp.malloc 100, ArOp.malloc 100, ArOp.malloc 100,
        ArOp.free (some 24), ArOp.free (some 328),
        ArOp.free (some 176)]).freelist = [0] ∧
    hdrSize (run okTrue arenaInit [ArOp.malloc 100, ArOp.malloc 100,
        ArOp.malloc 100, ArOp.free (some 24), ArOp.free (some 328),
        ArOp.free (some 176)]).headers 0 = 432 := by
  refine ⟨?_, by decide, by decide⟩
  intro ok ops
  have w := run_wf ok ops
  exact ⟨flChain_sorted w.flChain, w.flChain⟩

/-- C2: Allocate scans the free list in address order and unlinks the first
entry passing the first-fit test (`freed` and recorded size at least
`ALIGN size`), marks it live with its recorded size untouched, and returns
it whole; and in the scenario `a = Allocate 100; b = Allocate 50; Free a;
c = Allocate 80` the returned pointer `c` equals `a`. -/
theorem C2_firstfit_reuse :
    (∀ (ok : Nat → Bool) (a : ThreadArena) (s q : Nat),
      a.freelist.find? (fitPred a.headers (ALIGN s)) = some q →
      armalloc ok a s = (some (q + headerSize),
        { a with freelist := a.freelist.eraseP (fitPred a.headers (ALIGN s)),
                 headers := updateHdr a.headers q fun h => { h with freed := false } })) ∧
    (armalloc okTrue (arfree (armalloc okTrue (armalloc okTrue arenaInit 100).2 50).2
        ((armalloc okTrue arenaInit 100).1)) 80).1
      = (armalloc okTrue arenaInit 100).1 :=
  ⟨armalloc_firstfit, by decide⟩

/-- The state `a = Allocate 16; Free a` used to witness the first-fit rule:
its free list is `[0]` and the block at `0` records 32 freed bytes. -/
def reuseState : ThreadArena := arfree (armalloc okTrue arenaInit 16).2 (some 24)

theorem C2_witness :
    reuseState.freelist.find? (fitPred reuseState.headers (ALIGN 8)) = some 0 ∧
    armalloc okTrue reuseState 8 = (some (0 + headerSize),
      { reuseState with
        freelist := reuseState.freelist.eraseP (fitPred reuseState.headers (ALIGN 8)),
        headers := updateHdr reuseState.headers 0 fun h => { h with freed := false } }) :=
  ⟨by decide, C2_firstfit_reuse.1 okTrue reuseState 8 0 (by decide)⟩

/-- C3: Free never fails and is idempotent: `Free(null)` is a no-op, and a
second Free of the same pointer leaves the entire Arena state (offset,
capacity, free list, headers, payload bytes) exactly as after the first
call — in particular, no second free-list insertion happens. -/
theorem C3_free_idempotent :
    (∀ a : ThreadArena, arfree a none = a) ∧
    (∀ (a : ThreadArena) (p : Option Nat), arfree (arfree a p) p = arfree a p) :=
  ⟨fun _ => rfl, arfree_idem⟩

/-- C4: AllocateZeroed returns a null result whenever `size ≠ 0` and
`count > SIZE_MAX / size`, before any allocation is attempted, leaving the
Arena untouched; the guard is exactly the no-wrap condition for the
`size_t` product; and otherwise the call is Allocate of `count * size`
followed by zero-filling the returned bytes. -/
theorem C4_calloc_overflow_guard :
    (∀ (ok : Nat → Bool) (a : ThreadArena) (num size : Nat),
      size ≠ 0 → num > SIZE_MAX / size → arcalloc ok a num size = (none, a)) ∧
    (∀ num size : Nat, ¬ (size ≠ 0 ∧ num > SIZE_MAX / size) →
      num * size ≤ SIZE_MAX) ∧
    (∀ (ok : Nat → Bool) (a : ThreadArena) (num size : Nat),
      ¬ (size ≠ 0 ∧ num > SIZE_MAX / size) →
      arcalloc ok a num size =
        match armalloc ok a (num * size) with
        | (some p, a1) => (some p, { a1 with mem := memZero a1.mem p (num * size) })
        | (none, a1) => (none, a1)) :=
  ⟨arcalloc_overflow, arcalloc_no_overflow, arcalloc_delegates⟩

theorem C4_witness :
    arcalloc okTrue arenaInit (2 ^ 63) 4 = (none, arenaInit) ∧
    (3 * 8 : Nat) ≤ SIZE_MAX ∧
    arcalloc okTrue arenaInit 3 8 =
      match armalloc okTrue arenaInit (3 * 8) with
      | (some p, a1) => (some p, { a1 with mem := memZero a1.mem p (3 * 8) })
      | (none, a1) => (none, a1) :=
  ⟨C4_calloc_overflow_guard.1 okTrue arenaInit (2 ^ 63) 4 (by decide) (by decide),
   C4_calloc_overflow_guard.2.1 3 8 (by decide),
   C4_calloc_overflow_guard.2.2 okTrue arenaInit 3 8 (by decide)⟩

/-- C5: Reallocate with `ALIGN newSize` at most the block's recorded size
shrinks in place: same pointer back, header size rewritten to
`ALIGN newSize`, payload bytes and free list untouched (nothing is put on
the free list, and the first `newSize` bytes are preserved verbatim). -/
theorem C5_realloc_shrink :
    ∀ (ok : Nat → Bool) (a : ThreadArena) (p ns : Nat) (h : BlockHeader),
      lookupHdr a.headers (p - headerSize) = some h → ALIGN ns ≤ h.size →
      arrealloc ok a (some p) ns = (some p,
        { a with
          headers := updateHdr a.headers (p - headerSize) fun h0 => { h0 with size := ALIGN ns } }) ∧
      (arrealloc ok a (some p) ns).2.mem = a.mem ∧
      (arrealloc ok a (some p) ns).2.freelist = a.freelist := by
  intro ok a p ns h hl hle
  have heq := arrealloc_shrink ok a p ns h hl hle
  refine ⟨heq, ?_, ?_⟩ <;> rw [heq]

/-- The state `a = Allocate 100` used to witness shrink-in-place. -/
def shrinkState : ThreadArena := (armalloc okTrue arenaInit 100).2

theorem C5_witness :
    lookupHdr shrinkState.headers (24 - headerSize)
      = some { size := 128, freed := false } ∧
    ALIGN 50 ≤ (128 : Nat) ∧
    (arrealloc okTrue shrinkState (some 24) 50 = (some 24,
      { shrinkState with
        headers := updateHdr shrinkState.headers (24 - headerSize)
          fun h0 => { h0 with size := ALIGN 50 } }) ∧
     (arrealloc okTrue shrinkState (some 24) 50).2.mem = shrinkState.mem ∧
     (arrealloc okTrue shrinkState (some 24) 50).2.freelist = shrinkState.freelist) :=
  ⟨by decide, by decide,
   C5_realloc_shrink okTrue shrinkState 24 50 { size := 128, freed := false }
     (by decide) (by decide)⟩

/-- C6: when Reallocate must grow (the aligned new size exceeds the recorded
size) and the underlying Allocate fails, Reallocate returns a null result
and the arena — hence the original block's header and payload — is exactly
as before the call. -/
theorem C6_realloc_grow_fail :
    ∀ (ok : Nat → Bool) (a : ThreadArena) (p ns : Nat) (h : BlockHeader),
      lookupHdr a.headers (p - headerSize) = some h → ¬ ALIGN ns ≤ h.size →
      (armalloc ok a ns).1 = none →
      arrealloc ok a (some p) ns = (none, a) :=
  arrealloc_grow_fail

/-- The state `a = Allocate 8` under an always-failing backing allocator,
used to witness the grow-failure path. -/
def growFailState : ThreadArena := (armalloc okFalse arenaInit 8).2

theorem C6_witness :
    lookupHdr growFailState.headers (24 - headerSize)
      = some { size := 32, freed := false } ∧
    ¬ ALIGN 6000000 ≤ (32 : Nat) ∧
    (armalloc okFalse growFailState 6000000).1 = none ∧
    arrealloc okFalse growFailState (some 24) 6000000 = (none, growFailState) :=
  ⟨by decide, by decide, by decide,
   C6_realloc_grow_fail okFalse growFailState 24 6000000 { size := 32, freed := false }
     (by decide) (by decide) (by decide)⟩

/-- C7, counterexample: freeing two physically adjacent 32-byte blocks
coalesces them into one block whose recorded size is
`32 + headerSize + 32 = 88`, and `88` is not a multiple of the maximum
scalar alignment unit — so "every header's recorded size is aligned after
every operation, including after Free-time coalescing" is false. -/
theorem C7_counterexample :
    hdrSize (run okTrue arenaInit [ArOp.malloc 1, ArOp.malloc 1,
      ArOp.free (some 80), ArOp.free (some 24)]).headers 0 = 88 ∧
    ¬ (88 % maxAlignSize = 0) :=
  ⟨by decide, by decide⟩

/-- C7, amended: every header's recorded size is always a multiple of
`8 = gcd maxAlignSize headerSize`; the sizes written by Allocate's bump path
and Reallocate's shrink are `ALIGN` images and hence fully aligned; but
coalescing adds `headerSize = 24`, which is not a multiple of
`maxAlignSize`, so after a merge only 8-divisibility survives. -/
theorem C7_amended :
    (∀ (ok : Nat → Bool) (ops : List ArOp),
      ∀ e ∈ (run ok arenaInit ops).headers, e.2.size % 8 = 0) ∧
    (∀ x : Nat, ALIGN x % maxAlignSize = 0) ∧
    ¬ (headerSize % maxAlignSize = 0) :=
  ⟨fun ok ops => run_sizes ok ops, ALIGN_mod, by decide⟩

theorem C7_witness :
    ((0, ({ size := 32, freed := false } : BlockHeader)) ∈
      (run okTrue arenaInit [ArOp.malloc 1]).headers) ∧
    (32 : Nat) % 8 = 0 :=
  ⟨by decide,
   C7_amended.1 okTrue [ArOp.malloc 1] (0, { size := 32, freed := false }) (by decide)⟩

/-- C8, counterexample: a single `Allocate 10485760` (10 MiB) on a fresh
arena triggers growth; one doubling of the 5 MiB capacity undershoots, so
the clamp sets the capacity to exactly `offset + total = 10485784`, which is
not a multiple of the maximum scalar alignment unit — "capacity is always
aligned" is false, and the result is not reached by repeated doubling. -/
theorem C8_counterexample :
    (run okTrue arenaInit [ArOp.malloc 10485760]).capacity = 10485784 ∧
    ¬ ((run okTrue arenaInit [ArOp.malloc 10485760]).capacity % maxAlignSize = 0) := by
  have harm := armalloc_bump_grow okTrue arenaInit 10485760 rfl (by decide) rfl
  have hloop : expandLoop (arenaInit.offset + (ALIGN 10485760 + headerSize))
      arenaInit.capacity = 10485784 := by
    rw [(by decide : arenaInit.offset + (ALIGN 10485760 + headerSize) = 10485784),
        (by decide : arenaInit.capacity = 5242880),
        expandLoop_max 10485784 5242880 (by decide) (by decide)]
    decide
  have hcap : (run okTrue arenaInit [ArOp.malloc 10485760]).capacity = 10485784 := by
    show (armalloc okTrue arenaInit 10485760).2.capacity = 10485784
    rw [harm]
    exact hloop
  exact ⟨hcap, by rw [hcap]; decide⟩

/-- C8, amended: `0 ≤ offset ≤ capacity` holds after every operation, and
growth computes the new capacity as one doubling of the current capacity,
clamped up to exactly the required total when that doubling undershoots (the
clamp sits inside the `while` loop, so the body never runs twice and the
capacity is not always aligned — only the initial capacity is). -/
theorem C8_amended :
    (∀ (ok : Nat → Bool) (ops : List ArOp),
      (run ok arenaInit ops).offset ≤ (run ok arenaInit ops).capacity) ∧
    (∀ r c : Nat, 0 < c → c < r →
      expandLoop r c = if c * GROWTH_FACTOR < r then r else c * GROWTH_FACTOR) ∧
    ALIGN MIN_THREAD_STACK % maxAlignSize = 0 :=
  ⟨fun ok ops => run_offcap ok ops, expandLoop_max, ALIGN_mod MIN_THREAD_STACK⟩

theorem C8_witness :
    (0 : Nat) < 3 ∧ (3 : Nat) < 100 ∧
    expandLoop 100 3 = if 3 * GROWTH_FACTOR < 100 then 100 else 3 * GROWTH_FACTOR :=
  ⟨by decide, by decide, C8_amended.2.1 100 3 (by decide) (by decide)⟩

/-- The state `a = Allocate 100; Free a`, whose only free-list entry records
128 bytes. -/
def reuse9 : ThreadArena := arfree (armalloc okTrue arenaInit 100).2 (some 24)

/-- C9, counterexample: after `a = Allocate 100; Free a`, the call
`Allocate 32` succeeds by reusing the freed block whole — it returns the
same pointer, but the header preceding it still records 128, not
`ALIGN 32 = 32`: a successful Allocate's header does not record `align(s)`
on the free-list reuse path. -/
theorem C9_counterexample :
    (armalloc okTrue reuse9 32).1 = some 24 ∧
    lookupHdr (armalloc okTrue reuse9 32).2.headers (24 - headerSize)
      = some { size := 128, freed := false } ∧
    ¬ (ALIGN 32 = 128) :=
  ⟨by decide, by decide, by decide⟩

/-- C9, amended: a successful Allocate returns a pointer whose preceding
header records at least `ALIGN s` bytes (exactly `ALIGN s` on the bump
path), and `s ≤ ALIGN s` in exact arithmetic; over the 64-bit machine word
the macro agrees with the exact value whenever `s + 31 < 2^64`, and wraps
below `s` at the very top of the range. -/
theorem C9_amended :
    (∀ (ok : Nat → Bool) (ops : List ArOp) (s p : Nat) (a' : ThreadArena),
      armalloc ok (run ok arenaInit ops) s = (some p, a') →
      ∃ h, lookupHdr a'.headers (p - headerSize) = some h ∧ ALIGN s ≤ h.size) ∧
    (∀ s : Nat, s ≤ ALIGN s) ∧
    (∀ s : Nat, s + (maxAlignSize - 1) < 2 ^ 64 → ALIGN64 s = ALIGN s) ∧
    ALIGN64 (2 ^ 64 - 1) < 2 ^ 64 - 1 := by
  refine ⟨?_, ALIGN_ge, ALIGN64_eq_ALIGN, ALIGN64_wraps.2⟩
  intro ok ops s p a' hm
  exact armalloc_hdr ok (run ok arenaInit ops) s p a' (run_wf ok ops) hm

theorem C9_witness :
    (∃ h, lookupHdr (armalloc okTrue arenaInit 0).2.headers
        ((24 : Nat) - headerSize) = some h ∧ ALIGN 0 ≤ h.size) ∧
    (5 : Nat) + (maxAlignSize - 1) < 2 ^ 64 ∧ ALIGN64 5 = ALIGN 5 :=
  ⟨C9_amended.1 okTrue [] 0 24 (armalloc okTrue arenaInit 0).2 rfl,
   by decide, C9_amended.2.2.1 5 (by decide)⟩

/-- The oracle that accepts backing sizes up to the 10485784 bytes needed by
the first growth and nothing larger. -/
def ok10 : Nat → Bool := okLe 10485784

/-- C10, counterexample: on the reachable arena produced by a single
`Allocate 10485760` (whose growth left `offset = capacity` exactly),
`Allocate 0` with an empty free list must grow the buffer again, and when
that backing reallocation fails it returns a null result — "Allocate(0)
never returns a null result once the Arena exists" is false. -/
theorem C10_counterexample :
    (armalloc ok10 (run ok10 arenaInit [ArOp.malloc 10485760]) 0).1 = none := by
  have hok : ok10 (expandLoop (arenaInit.offset + (ALIGN 10485760 + headerSize))
      arenaInit.capacity) = true := by
    rw [(by decide : arenaInit.offset + (ALIGN 10485760 + headerSize) = 10485784),
        (by decide : arenaInit.capacity = 5242880),
        expandLoop_max 10485784 5242880 (by decide) (by decide)]
    decide
  have harm := armalloc_bump_grow ok10 arenaInit 10485760 rfl (by decide) hok
  have hloop : expandLoop (arenaInit.offset + (ALIGN 10485760 + headerSize))
      arenaInit.capacity = 10485784 := by
    rw [(by decide : arenaInit.offset + (ALIGN 10485760 + headerSize) = 10485784),
        (by decide : arenaInit.capacity = 5242880),
        expandLoop_max 10485784 5242880 (by decide) (by decide)]
    decide
  rw [hloop] at harm
  rw [(by decide : arenaInit.offset + headerSize = 24)] at harm
  rw [(by decide : arenaInit.offset + (ALIGN 10485760 + headerSize) = 10485784)] at harm
  rw [(by decide : ALIGN 10485760 = 10485760)] at harm
  rw [(by decide : arenaInit.offset = 0)] at harm
  simp only [show arenaInit.headers = ([] : Headers) from rfl,
             show arenaInit.freelist = ([] : List Nat) from rfl,
             show arenaInit.mem = (fun _ => 0) from rfl,
             List.nil_append] at harm
  have harm2 : (armalloc ok10 arenaInit 10485760).2 =
      ({ capacity := 10485784, offset := 10485784, freelist := [],
         headers := [(0, { size := 10485760, freed := false })],
         mem := fun _ => 0 } : ThreadArena) := by
    rw [harm]
  rw [run_malloc_one, harm2]
  have hfail := armalloc_zero_fail ok10
    { capacity := 10485784, offset := 10485784, freelist := [],
      headers := [(0, { size := 10485760, freed := false })],
      mem := fun _ => 0 }
    rfl (by decide) ?hok2
  case hok2 =>
    rw [expandLoop_max (10485784 + headerSize) 10485784 (by decide) (by decide)]
    decide
  rw [hfail]

/-- C10, amended: `ALIGN 0 = 0`, so `Allocate 0` with a non-empty free list
returns the head (lowest-addressed) free block whole; with an empty free
list and `offset + headerSize ≤ capacity` it carves a zero-payload block,
advancing `offset` by exactly `headerSize`; a null result happens exactly
when the buffer must grow and the backing reallocation fails. -/
theorem C10_amended :
    (∀ (ok : Nat → Bool) (ops : List ArOp) (q : Nat) (rest : List Nat),
      (run ok arenaInit ops).freelist = q :: rest →
      armalloc ok (run ok arenaInit ops) 0 = (some (q + headerSize),
        { (run ok arenaInit ops) with freelist := rest, headers := updateHdr (run ok arenaInit ops).headers q (fun h => { h with freed := false }) })) ∧
    (∀ (ok : Nat → Bool) (a : ThreadArena), a.freelist = [] →
      a.offset + headerSize ≤ a.capacity →
      armalloc ok a 0 = (some (a.offset + headerSize),
        { a with headers := a.headers ++ [(a.offset, { size := 0, freed := false })],
                 offset := a.offset + headerSize })) ∧
    (∀ (ok : Nat → Bool) (a : ThreadArena), a.freelist = [] →
      a.offset + headerSize > a.capacity →
      ok (expandLoop (a.offset + headerSize) a.capacity) = false →
      armalloc ok a 0 = (none, a)) := by
  refine ⟨?_, armalloc_zero_bump, armalloc_zero_fail⟩
  intro ok ops q rest hfl
  exact armalloc_zero_head ok (run ok arenaInit ops) q rest (run_wf ok ops) hfl

theorem C10_witness :
    ((run okTrue arenaInit [ArOp.malloc 16, ArOp.free (some 24)]).freelist
        = 0 :: ([] : List Nat) ∧
      armalloc okTrue (run okTrue arenaInit [ArOp.malloc 16, ArOp.free (some 24)]) 0
        = (some (0 + headerSize),
          { (run okTrue arenaInit [ArOp.malloc 16, ArOp.free (some 24)]) with freelist := ([] : List Nat), headers := updateHdr (run okTrue arenaInit [ArOp.malloc 16, ArOp.free (some 24)]).headers 0 (fun h => { h with freed := false }) })) ∧
    arenaInit.freelist = [] ∧
    arenaInit.offset + headerSize ≤ arenaInit.capacity ∧
    armalloc okTrue arenaInit 0 = (some (arenaInit.offset + headerSize),
      { arenaInit with
        headers := arenaInit.headers ++ [(arenaInit.offset, { size := 0, freed := false })],
        offset := arenaInit.offset + headerSize }) :=
  ⟨⟨by decide,
    C10_amended.1 okTrue [ArOp.malloc 16, ArOp.free (some 24)] 0 [] (by decide)⟩,
   rfl, by decide,
   C10_amended.2.1 okTrue arenaInit rfl (by decide)⟩

end Arena
